import Mathlib

/-
Verification of the burn-bench orchestration core: a shallow embedding of
the dependency patcher (crates/burnbench/src/runner/dependency.rs), the
matrix driver (crates/burnbench/src/runner/base.rs), the process supervisor
(burnbench/src/runner/processor.rs), the timing engine
(burnbench/src/benchmark.rs) and the report renderer
(burnbench/src/runner/reports.rs), together with proofs of the spec claims.

Strings are modelled as `List Char` (the byte/char sequence of the Rust
`String`); the file system as a partial map from path strings to contents.
-/

set_option maxHeartbeats 1000000
set_option maxRecDepth 4000

/-! ## String replacement (Rust `str::replace`)

`replaceAll p r s` replaces every non-overlapping occurrence of `p` in `s`
by `r`, scanning left to right, exactly like Rust's `str::replace`.
The patterns used by the repository are all non-empty. -/

def replaceAllFuel (p r : List Char) : Nat → List Char → List Char
  | _, [] => []
  | 0, s => s
  | f + 1, c :: t =>
    if p <+: (c :: t) then r ++ replaceAllFuel p r f (List.drop (p.length - 1) t)
    else c :: replaceAllFuel p r f t

def replaceAll (p r : List Char) (s : List Char) : List Char :=
  replaceAllFuel p r s.length s

/-! ## Semver model (the `semver` crate as used by `Dependency::new`)

`Dependency::new` calls `semver::Version::parse`, which accepts exactly
`MAJOR.MINOR.PATCH` with optional `-PRERELEASE` and `+BUILD` parts; numeric
identifiers have no leading zeros.  The `semver` crate is an external
dependency of the repository, modelled here after its documented grammar
and precedence rules. -/

structure Version where
  major : Nat
  minor : Nat
  patch : Nat
  pre : List String
  build : List String
deriving DecidableEq, Repr

def digitsToNat (l : List Char) : Nat :=
  l.foldl (fun acc c => acc * 10 + (c.toNat - 48)) 0

def parseNumericId (l : List Char) : Option (Nat × List Char) :=
  if l.takeWhile Char.isDigit = [] then none
  else if 1 < (l.takeWhile Char.isDigit).length ∧
      (l.takeWhile Char.isDigit).headD '0' = '0' then none
  else some (digitsToNat (l.takeWhile Char.isDigit), l.dropWhile Char.isDigit)

def identChar (c : Char) : Bool := c.isAlphanum || c == '-'

/-- Split a char list at the first occurrence of `c`; the second component
is `none` when `c` does not occur. -/
def splitAtChar (c : Char) : List Char → List Char × Option (List Char)
  | [] => ([], none)
  | a :: t =>
    if a = c then ([], some t)
    else
      let (pre, post) := splitAtChar c t
      (a :: pre, post)

def splitOnChar (c : Char) (l : List Char) : List (List Char) :=
  l.foldr
    (fun a acc =>
      if a = c then [] :: acc
      else
        match acc with
        | [] => [[a]]
        | h :: t => (a :: h) :: t)
    [[]]

def validPreIdent (l : List Char) : Bool :=
  l ≠ [] && l.all identChar &&
    !(l.all Char.isDigit && 1 < l.length && l.headD '0' == '0')

def validBuildIdent (l : List Char) : Bool :=
  l ≠ [] && l.all identChar

def parsePreList (l : List Char) : Option (List String) :=
  let parts := splitOnChar '.' l
  if parts.all validPreIdent then some (parts.map (fun p => String.mk p)) else none

def parseBuildList (l : List Char) : Option (List String) :=
  let parts := splitOnChar '.' l
  if parts.all validBuildIdent then some (parts.map (fun p => String.mk p)) else none

def parseVersion (s : String) : Option Version :=
  match parseNumericId s.toList with
  | none => none
  | some (maj, r1) =>
    match r1 with
    | '.' :: r2 =>
      match parseNumericId r2 with
      | none => none
      | some (minr, r3) =>
        match r3 with
        | '.' :: r4 =>
          match parseNumericId r4 with
          | none => none
          | some (pat, r5) =>
            match r5 with
            | [] => some ⟨maj, minr, pat, [], []⟩
            | '-' :: r6 =>
              let (preRaw, buildRaw) := splitAtChar '+' r6
              match parsePreList preRaw with
              | none => none
              | some pre =>
                match buildRaw with
                | none => some ⟨maj, minr, pat, pre, []⟩
                | some braw =>
                  match parseBuildList braw with
                  | none => none
                  | some build => some ⟨maj, minr, pat, pre, build⟩
            | '+' :: r6 =>
              match parseBuildList r6 with
              | none => none
              | some build => some ⟨maj, minr, pat, [], build⟩
            | _ => none
        | _ => none
    | _ => none

/-- Semver precedence on pre-release identifiers: numeric identifiers
compare numerically and are lower than alphanumeric ones, which compare
in ASCII order. -/
def cmpPreIdent (a b : String) : Ordering :=
  let an := a.toList.all Char.isDigit
  let bn := b.toList.all Char.isDigit
  match an, bn with
  | true, true => compare (digitsToNat a.toList) (digitsToNat b.toList)
  | true, false => .lt
  | false, true => .gt
  | false, false => compare a b

def cmpPreList : List String → List String → Ordering
  | [], [] => .eq
  | [], _ :: _ => .lt
  | _ :: _, [] => .gt
  | a :: as, b :: bs => (cmpPreIdent a b).then (cmpPreList as bs)

/-- Semver precedence: compare `(major, minor, patch)` lexicographically;
on ties a version with a pre-release is lower than one without; two
pre-releases compare identifier-wise.  Build metadata is ignored. -/
def versionCmp (a b : Version) : Ordering :=
  (compare a.major b.major).then ((compare a.minor b.minor).then
    ((compare a.patch b.patch).then
      (match a.pre, b.pre with
       | [], [] => .eq
       | [], _ :: _ => .gt
       | _ :: _, [] => .lt
       | x :: xs, y :: ys => cmpPreList (x :: xs) (y :: ys))))

def versionLt (a b : Version) : Bool := versionCmp a b == .lt

def versionNew (major minor patch : Nat) : Version := ⟨major, minor, patch, [], []⟩

/-! ## `Dependency` classification (dependency.rs, `Dependency::new` and
`is_commit_hash`) -/

def hexLowerChar (c : Char) : Bool :=
  ('0' ≤ c && c ≤ '9') || ('a' ≤ c && c ≤ 'f')

/-- Embedding of `is_commit_hash`: the regex `^[0-9a-f]{7,40}$`. -/
def is_commit_hash (s : String) : Bool :=
  7 ≤ s.toList.length && s.toList.length ≤ 40 && s.toList.all hexLowerChar

inductive Dependency where
  | Local : Dependency
  | Crate : Version → Dependency
  | Git : String → Dependency
deriving DecidableEq, Repr

/-- Embedding of `Dependency::new`. -/
def Dependency.new (version : String) : Dependency :=
  if version = "local" then .Local
  else
    match parseVersion version with
    | some v => .Crate v
    | none =>
      .Git (if is_commit_hash version then "rev = \"" ++ version ++ "\""
            else "branch = \"" ++ version ++ "\"")

/-! ## Feature-flag translation table (dependency.rs, `update_feature_flags`)

The eight chained `str::replace` calls, in source order, followed by the
conditional bincode pin for versions older than 0.16.1. -/

def ffPat1 : List Char := ( "cuda = [\"burn/cuda\"]").toList
def ffRep1 : List Char := ( "cuda = [\"burn/cuda-jit\"]").toList
def ffPat2 : List Char := ( "rocm = [\"burn/rocm\"]").toList
def ffRep2 : List Char := ( "rocm = [\"burn/hip-jit\"]").toList
def ffPat3 : List Char := ( "ndarray-simd = [\"ndarray\", \"burn/simd\"]").toList
def ffRep3 : List Char := ( "ndarray-simd = [\"ndarray\"]").toList
def ffPat4 : List Char := ( "vulkan = [\"burn/vulkan\", \"burn/autotune\"]").toList
def ffRep4 : List Char := ( "vulkan = [\"burn/wgpu-spirv\", \"burn/autotune\"]").toList
def ffPat5 : List Char := ( "metal = [\"burn/vulkan\", \"burn/autotune\"]").toList
def ffRep5 : List Char := ( "metal = [\"burn/wgpu\", \"burn/autotune\"]").toList
def ffPat6 : List Char := ( "ndarray-simd = [\"burn/ndarray\", \"burn/simd\"]").toList
def ffRep6 : List Char := ( "ndarray-simd = [\"burn/ndarray\"]").toList
def ffPat7 : List Char := ( "candle-metal = [\"burn/candle\", \"burn/candle-metal\"]").toList
def ffRep7 : List Char := ( "candle-metal = [\"burn/candle\", \"burn/metal\"]").toList
def ffPat8 : List Char := ( "rand = \x7b version = \"0.9.0\" \x7d").toList
def ffRep8 : List Char := ( "rand = \x7b version = \"0.8.5\" \x7d").toList

def ffSteps : List (List Char × List Char) :=
  [(ffPat1, ffRep1), (ffPat2, ffRep2), (ffPat3, ffRep3), (ffPat4, ffRep4),
   (ffPat5, ffRep5), (ffPat6, ffRep6), (ffPat7, ffRep7), (ffPat8, ffRep8)]

def bincodePin : List Char := ( "bincode = \"=2.0.0-rc.3\"").toList
def depTablePat : List Char := ( "[dependencies]").toList
def depTableRep : List Char :=
  ( "[dependencies]\nbincode = \"=2.0.0-rc.3\"\nbincode_derive = \"=2.0.0-rc.3\"").toList

def chainReplace (content : List Char) : List Char :=
  ffSteps.foldl (fun c pr => replaceAll pr.1 pr.2 c) content

/-- Embedding of `Dependency::update_feature_flags` (the shadowed
`content` of the source is inlined as `chainReplace content`). -/
def Dependency.update_feature_flags (version : Version) (content : List Char) : List Char :=
  if versionLt version (versionNew 0 17 0) then
    if versionLt version (versionNew 0 16 1) ∧ ¬ bincodePin <:+: chainReplace content then
      replaceAll depTablePat depTableRep (chainReplace content)
    else chainReplace content
  else content

/-! ## Dependency-table rewrite (the regex `NAME = \x7b([^\x7d]|\n)*\x7d`)

The pattern matches the literal `NAME = \x7b` followed by the shortest run
of non-`\x7d` characters and the closing `\x7d` (the character class
excludes the closing brace, so a match always ends at the first one);
`replace_all` resumes after each replacement. -/

def scanDep (pat rep : List Char) : List Char → List Char
  | [] => []
  | c :: t =>
    if pat <+: (c :: t) then
      match (List.drop pat.length (c :: t)).findIdx? (fun x => x == '\x7d') with
      | some i => rep ++ scanDep pat rep ((List.drop pat.length (c :: t)).drop (i + 1))
      | none => c :: t
    else c :: scanDep pat rep t
  termination_by s => s.length
  decreasing_by
    · simp only [List.length_drop, List.length_cons]; omega
    · simp only [List.length_cons]; omega

/-! ## File-system model and the manifest patcher (dependency.rs) -/

abbrev FileSys := String → Option (List Char)

def writeFS (fs : FileSys) (path : String) (content : List Char) : FileSys :=
  fun q => if q = path then some content else fs q

def joinPath (a b : String) : String :=
  if a.toList.getLast? = some '/' then a ++ b else a ++ "/" ++ b

structure TomlDependencyGuard where
  cargo_file_path : String
  original_content : List Char

structure CargoDependencyGuard where
  benches : Option TomlDependencyGuard
  workspace : Option TomlDependencyGuard

instance : Inhabited CargoDependencyGuard := ⟨⟨none, none⟩⟩

structure DependencyContent where
  benches : List Char
  benches_path : String
  workspace : Option (List Char)
  workspace_path : Option String

structure DependencyContentUpdate where
  benches : Option (List Char)
  workspace : Option (List Char)

def workspaceMarkerA : List Char := ( "burn = \"workspace\"").toList
def workspaceMarkerB : List Char := ( "burn = \x7b workspace = true").toList

/-- Embedding of `DependencyContent::from_path`: read the crate manifest;
when it declares the burn dependency as workspace-inherited, also read the
workspace-root manifest `./Cargo.toml`. -/
def DependencyContent.from_path (fs : FileSys) (base_path : String) :
    Option DependencyContent :=
  let benches_path := joinPath base_path "Cargo.toml"
  match fs benches_path with
  | none => none
  | some benches =>
    if workspaceMarkerA <:+: benches ∨ workspaceMarkerB <:+: benches then
      match fs "./Cargo.toml" with
      | none => none
      | some content => some ⟨benches, benches_path, some content, some "./Cargo.toml"⟩
    else some ⟨benches, benches_path, none, none⟩

/-- Embedding of `DependencyContent::update`: rewrite the workspace
manifest when the dependency is workspace-inherited, else the crate one. -/
def DependencyContent.update (c : DependencyContent) (f : List Char → List Char) :
    DependencyContentUpdate :=
  match c.workspace with
  | some content => ⟨none, some (f content)⟩
  | none => ⟨some (f c.benches), none⟩

/-- Embedding of `DependencyContentUpdate::create_guard`; the source
unwraps `workspace_path`/`workspace`, which are always present when the
workspace update is (the `none` fallback is the unreachable panic path). -/
def DependencyContentUpdate.create_guard (u : DependencyContentUpdate)
    (c : DependencyContent) : CargoDependencyGuard :=
  { benches :=
      match u.benches with
      | some _ => some ⟨c.benches_path, c.benches⟩
      | none => none,
    workspace :=
      match u.workspace, c.workspace_path, c.workspace with
      | some _, some p, some orig => some ⟨p, orig⟩
      | _, _, _ => none }

/-- Embedding of `DependencyContentUpdate::perform_update`: write the
crate manifest first, then the workspace manifest. -/
def DependencyContentUpdate.perform_update (u : DependencyContentUpdate)
    (c : DependencyContent) (fs : FileSys) : FileSys :=
  let fs1 :=
    match u.benches with
    | some updated => writeFS fs c.benches_path updated
    | none => fs
  match u.workspace, c.workspace_path with
  | some updated, some p => writeFS fs1 p updated
  | _, _ => fs1

/-- Embedding of `impl Drop for TomlDependencyGuard`: truncate the file to
length 0 (`set_len(0)`), then write the captured original text back. -/
def TomlDependencyGuard.release (g : TomlDependencyGuard) (fs : FileSys) : FileSys :=
  writeFS (writeFS fs g.cargo_file_path []) g.cargo_file_path g.original_content

/-- Dropping a `CargoDependencyGuard` drops its fields in declaration
order: the crate-manifest guard first, then the workspace guard. -/
def CargoDependencyGuard.release (g : CargoDependencyGuard) (fs : FileSys) : FileSys :=
  let fs1 :=
    match g.benches with
    | some t => t.release fs
    | none => fs
  match g.workspace with
  | some t => t.release fs1
  | none => fs1

def BURN_BASE : List String := [ "burn", "burn-common", "burn-import"]

def applyBurnBases (f : String → List Char → List Char) (content : List Char) : List Char :=
  BURN_BASE.foldl (fun c base => f base c) content

def versionToString (v : Version) : String :=
  toString v.major ++ "." ++ toString v.minor ++ "." ++ toString v.patch
    ++ (if v.pre = [] then "" else "-" ++ String.intercalate "." v.pre)
    ++ (if v.build = [] then "" else "+" ++ String.intercalate "." v.build)

/-- Embedding of `Dependency::update_burn_version`. -/
def Dependency.update_burn_version (content : DependencyContent) (version : Version) :
    DependencyContentUpdate :=
  let version_str := versionToString version
  let update_version := fun (c : List Char) =>
    applyBurnBases
      (fun base cc =>
        scanDep (base ++ " = \x7b").toList
          (base ++ " = \x7b version = \"=" ++ version_str
            ++ "\", default-features = false \x7d").toList cc)
      c
  match content.workspace with
  | some original =>
    ⟨some (Dependency.update_feature_flags version content.benches),
     some (update_version original)⟩
  | none =>
    ⟨some (Dependency.update_feature_flags version (update_version content.benches)),
     none⟩

/-- Embedding of `Dependency::update_burn_git`. -/
def Dependency.update_burn_git (content : DependencyContent) (reference : String) :
    DependencyContentUpdate :=
  content.update
    (applyBurnBases
      (fun base cc =>
        scanDep (base ++ " = \x7b").toList
          (base ++ " = \x7b git = \"https://github.com/tracel-ai/burn\", " ++ reference
            ++ ", default-features = false \x7d").toList cc))

/-- Embedding of `Dependency::update_burn_local`. -/
def Dependency.update_burn_local (content : DependencyContent) (repo_path : String) :
    DependencyContentUpdate :=
  let rp :=
    match content.workspace_path with
    | some _ => repo_path
    | none => joinPath "../" repo_path
  content.update
    (applyBurnBases
      (fun base cc =>
        scanDep (base ++ " = \x7b").toList
          (base ++ " = \x7b path = \"" ++ rp ++ "crates/" ++ base
            ++ "\", default-features = false \x7d").toList cc))

/-- The rewrite selected by `Dependency::patch` for the three dependency
kinds (`burnDirEnv` models the `BURN_BENCH_BURN_DIR` environment
variable, defaulting to `../burn/`). -/
def patchUpdate (dep : Dependency) (content_original : DependencyContent)
    (burnDirEnv : Option String) : DependencyContentUpdate :=
  match dep with
  | .Local => Dependency.update_burn_local content_original (burnDirEnv.getD "../burn/")
  | .Crate v => Dependency.update_burn_version content_original v
  | .Git r => Dependency.update_burn_git content_original r

/-- Embedding of `Dependency::patch`: read the manifest set, compute the
rewrite, capture the originals in a guard, then write the rewrite out. -/
def Dependency.patch (dep : Dependency) (fs : FileSys) (base_path : String)
    (burnDirEnv : Option String) : Option (CargoDependencyGuard × FileSys) :=
  match DependencyContent.from_path fs base_path with
  | none => none
  | some content_original =>
    let content := patchUpdate dep content_original burnDirEnv
    some (content.create_guard content_original,
          content.perform_update content_original fs)

/-! ## Matrix driver (crates/burnbench/src/runner/base.rs)

`run_backend_comparison_benchmarks` iterates versions, then backends, then
dtypes; the benches list is joined into one `bench_str` and passed through
unexpanded.  The child invocation is abstracted by `exitStatusOf`, the exit
code reported by `run_cargo`'s `CargoRunner::run` for that cell (the
`io::Result` wrapper is unwrapped by the source). -/

structure FailedBenchmark where
  bench : String
  backend : String
deriving DecidableEq, Repr

structure MatrixOutcome where
  attempts : List (String × String × String)
  failed : List FailedBenchmark
deriving DecidableEq, Repr

def run_backend_comparison_benchmarks (benches backends versions dtypes : List String)
    (exitStatusOf : String → String → String → Nat) : MatrixOutcome :=
  versions.foldl
    (fun acc version =>
      backends.foldl
        (fun acc backend =>
          dtypes.foldl
            (fun acc dtype =>
              let bench_str := String.intercalate ", " benches
              let success := exitStatusOf version backend dtype == 0
              { attempts := acc.attempts ++ [(version, backend, dtype)],
                failed :=
                  if success then acc.failed
                  else acc.failed ++ [⟨bench_str, backend⟩] })
            acc)
        acc)
    ⟨[], []⟩

/-- The iteration space of the matrix loop, one cell per
`(version, backend, dtype)` triple in the source's nesting order. -/
def matrixCells (versions backends dtypes : List String) :
    List (String × String × String) :=
  versions.flatMap (fun v => backends.flatMap (fun b => dtypes.map (fun d => (v, b, d))))

/-- Embedding of `get_version` (base.rs): `PR#<number>_<sha>` yields the
sha after the first underscore; anything else passes through. -/
def get_version (version : String) : String :=
  if ( "PR#").toList <+: version.toList then
    match splitAtChar '_' (version.toList.drop 3) with
    | (_, some sha) => String.mk sha
    | (_, none) => version
  else version

/-- Feature string built by `run_cargo` (base.rs lines 381-403): the
crate's backend and dtype features, the per-bench required features (added
once plainly and once crate-qualified, as in the source), and the legacy
version markers. -/
def buildFeatures (name : String) (benches : List String) (backend dtype version : String)
    (required_features : String → List String) : String :=
  let base := name ++ "/" ++ backend ++ "," ++ name ++ "/" ++ dtype
  let withReq :=
    benches.foldl
      (fun f bench => (required_features bench).foldl (fun f r => f ++ "," ++ r) f)
      base
  let withLegacy :=
    if ( "0.16").toList <+: version.toList then withReq ++ ",legacy-v16"
    else if ( "0.17").toList <+: version.toList then withReq ++ ",legacy-v17"
    else withReq
  benches.foldl
    (fun f bench =>
      (required_features bench).foldl (fun f r => f ++ "," ++ name ++ "/" ++ r) f)
    withLegacy

/-! ## Timing engine (burnbench/src/benchmark.rs)

A benchmark implementation is abstracted by the duration its k-th
`execute` call measures; `Benchmark::run` is embedded as an event trace
plus the returned `BenchmarkDurations`.  Both timing methods measure one
execution between two syncs (`profile` defaults to `profile_full`); the
`Device` future is resolved synchronously before the next sample. -/

inductive TimingMethod where
  | System
  | Device
deriving DecidableEq, Repr

inductive BenchEvent where
  | prepare
  | sync
  | execute
  | sleepSec (s : Nat)
deriving DecidableEq, Repr

/-- Events of one `profile_full` call: `sync(); start; execute; sync()`. -/
def profileEvents : List BenchEvent := [.sync, .execute, .sync]

structure BenchmarkDurations (δ : Type) where
  timing_method : TimingMethod
  durations : List δ
deriving Repr

structure BenchmarkModel (δ : Type) where
  sampleDuration : Nat → δ

/-- Rust `str::parse::<usize>`: optional leading `+`, then one or more
digits (machine-width overflow is not modelled). -/
def parseUsize (s : String) : Option Nat :=
  let l := if s.toList.headD ' ' = '+' then s.toList.drop 1 else s.toList
  if l ≠ [] ∧ l.all Char.isDigit then some (digitsToNat l) else none

/-- Embedding of the default `Benchmark::num_samples`: 10 unless the
`BENCH_NUM_SAMPLES` environment variable is set to a parsable number
(an unparsable value falls back to the default). -/
def num_samples (envVar : Option String) : Nat :=
  match envVar with
  | some val => (parseUsize val).getD 10
  | none => 10

/-- Embedding of the default `Benchmark::run`: one `prepare`, three warmup
executions whose durations are discarded, a 1-second sleep, then
`num_samples()` timed executions collected in order. -/
def Benchmark.run {δ : Type} (bm : BenchmarkModel δ) (timing_method : TimingMethod)
    (envVar : Option String) : List BenchEvent × BenchmarkDurations δ :=
  let ev0 := [BenchEvent.prepare]
  let warm :=
    (List.range 3).foldl
      (fun (acc : List BenchEvent × Nat) _ => (acc.1 ++ profileEvents, acc.2 + 1))
      (ev0, 0)
  let slept := warm.1 ++ [BenchEvent.sleepSec 1]
  let real :=
    (List.range (num_samples envVar)).foldl
      (fun (acc : List BenchEvent × Nat × List δ) _ =>
        (acc.1 ++ profileEvents, acc.2.1 + 1, acc.2.2 ++ [bm.sampleDuration acc.2.1]))
      (slept, warm.2, [])
  (real.1, ⟨timing_method, real.2.2⟩)

/-! ## Summary statistics

Modelled from the spec: the statistics layer (`BenchmarkComputations` in
the persistence module of the burnbench crate) is not among the available
sources; per the spec it computes mean, median, variance, min and max over
the collected samples.  Durations are modelled as rationals. -/

def listMin : List ℚ → ℚ
  | [] => 0
  | h :: t => t.foldl min h

def listMax : List ℚ → ℚ
  | [] => 0
  | h :: t => t.foldl max h

def sortedSamples (l : List ℚ) : List ℚ :=
  List.insertionSort (fun a b => a ≤ b) l

def medianOf (l : List ℚ) : ℚ :=
  let s := sortedSamples l
  if l.length % 2 = 1 then s.getD (l.length / 2) 0
  else (s.getD (l.length / 2 - 1) 0 + s.getD (l.length / 2) 0) / 2

structure BenchmarkComputations where
  mean : ℚ
  median : ℚ
  variance : ℚ
  min : ℚ
  max : ℚ
deriving Repr

def BenchmarkComputations.ofSamples (l : List ℚ) : BenchmarkComputations :=
  let n : ℚ := l.length
  let mean := l.sum / n
  { mean := mean
    median := medianOf l
    variance := (l.map (fun x => (x - mean) ^ 2)).sum / n
    min := listMin l
    max := listMax l }

/-! ## Process supervisor (burnbench/src/runner/processor.rs)

`CargoRunner::run_command` drains stdout and stderr on two joined reader
threads (their interleaving is immaterial here and is modelled in a
canonical order), calls `finish()` after both joins, then waits on the
child; the child's `ExitStatus` is returned as the `Ok` value whatever the
exit code is. -/

structure ChildProcess where
  stdout_lines : List String
  stderr_lines : List String
  exit_code : Nat
deriving DecidableEq, Repr

inductive SupEvent where
  | outLine (l : String)
  | errLine (l : String)
  | finishCall
  | waitCall
deriving DecidableEq, Repr

def CargoRunner.run_command (child : ChildProcess) :
    List SupEvent × Except String Nat :=
  ((child.stdout_lines.map SupEvent.outLine) ++ (child.stderr_lines.map SupEvent.errLine)
     ++ [SupEvent.finishCall, SupEvent.waitCall],
   Except.ok child.exit_code)

/-! ## Report rendering (burnbench/src/runner/reports.rs)

Rows of the rendered table; a record is projected to the fields the
rendering logic inspects (benchmark name, shapes, computed median — the
remaining displayed columns play no role in ordering or separators). -/

structure ReportRecord where
  name : String
  shapes : List (List Nat)
  median : ℚ
deriving DecidableEq, Repr

/-- The comparator of `impl Display for BenchmarkCollection`:
`name.cmp(..).then(shapes.cmp(..)).then(median.partial_cmp(..))` as a
total preorder — lexicographic on (name, shapes, median), with UTF-8 byte
order on strings equal to code-point order. -/
def recordLe (a b : ReportRecord) : Prop :=
  toLex (a.name.toList, toLex (a.shapes, a.median))
    ≤ toLex (b.name.toList, toLex (b.shapes, b.median))

instance recordLe.dec : DecidableRel recordLe := fun _ _ => by
  unfold recordLe; infer_instance

instance recordLe.total : IsTotal ReportRecord recordLe :=
  ⟨fun _ _ => le_total _ _⟩

instance recordLe.trans : IsTrans ReportRecord recordLe :=
  ⟨fun _ _ _ hab hbc => le_trans hab hbc⟩

/-- Rust `sort_by` is a stable sort; `insertionSort` is the stable sort
used for the embedding. -/
def sortRecords (records : List ReportRecord) : List ReportRecord :=
  List.insertionSort (fun a b => recordLe a b) records

inductive ReportRow where
  | success (r : ReportRecord)
  | separator
  | failedRow (f : FailedBenchmark)
deriving DecidableEq, Repr

/-- The success-row loop of the Display impl: `prev_benchmark` starts as
the empty string, a separator row is emitted when the (name, shapes) pair
changes and `prev_benchmark` is non-empty, and the state is updated only
inside that branch. -/
def successRowsLoop : List ReportRecord → String → List (List Nat) → List ReportRow
  | [], _, _ => []
  | r :: rest, prev_benchmark, prev_shapes =>
    if prev_benchmark ≠ r.name ∨ prev_shapes ≠ r.shapes then
      (if prev_benchmark ≠ "" then [ReportRow.separator] else [])
        ++ ReportRow.success r :: successRowsLoop rest r.name r.shapes
    else ReportRow.success r :: successRowsLoop rest prev_benchmark prev_shapes

/-- Embedding of the Display impl: sorted success rows with separators,
then one distinguished row per failed benchmark. -/
def renderRows (records : List ReportRecord) (failed : List FailedBenchmark) :
    List ReportRow :=
  successRowsLoop (sortRecords records) "" [] ++ failed.map ReportRow.failedRow

/-- Declarative pairwise form of the separator rule (used to state the
amended separator claim): between two consecutive sorted rows a separator
appears exactly when the (name, shapes) group changes and the earlier
row's name is non-empty. -/
def specRowsAux : ReportRecord → List ReportRecord → List ReportRow
  | _, [] => []
  | prev, r :: rest =>
    (if (prev.name ≠ r.name ∨ prev.shapes ≠ r.shapes) ∧ prev.name ≠ "" then
        [ReportRow.separator]
      else [])
      ++ ReportRow.success r :: specRowsAux r rest

def specRows : List ReportRecord → List ReportRow
  | [] => []
  | r :: rest => ReportRow.success r :: specRowsAux r rest

/-! ## Concrete fixtures used by witness theorems -/

instance : Inhabited FileSys := ⟨fun _ => none⟩

def sampleManifest : List Char :=
  ( "[package]\nname = \"backend-comparison\"\n\n[dependencies]\nburn = \x7b version = \"0.15.0\", default-features = false \x7d\nrand = \x7b version = \"0.9.0\" \x7d\n\n[features]\ncuda = [\"burn/cuda\"]\n").toList

def sampleWorkspaceManifest : List Char :=
  ( "[workspace]\n\n[workspace.dependencies]\nburn = \x7b version = \"0.15.0\" \x7d\n").toList

def sampleCrateManifestWs : List Char :=
  ( "[dependencies]\nburn = \x7b workspace = true \x7d\n").toList

def fsSimple : FileSys := fun p =>
  if p = "crates/backend-comparison/Cargo.toml" then some sampleManifest else none

def fsWs : FileSys := fun p =>
  if p = "crates/backend-comparison/Cargo.toml" then some sampleCrateManifestWs
  else if p = "./Cargo.toml" then some sampleWorkspaceManifest
  else none

def c1SampleContent : DependencyContent :=
  ⟨sampleManifest, "crates/backend-comparison/Cargo.toml", none, none⟩

def c1WitnessUpdate : DependencyContentUpdate :=
  patchUpdate (Dependency.new "0.16.0") c1SampleContent none

def c1WitnessGuard : CargoDependencyGuard :=
  c1WitnessUpdate.create_guard c1SampleContent

def c1WitnessFs : FileSys :=
  c1WitnessUpdate.perform_update c1SampleContent fsSimple

def c10SampleContent : DependencyContent :=
  ⟨sampleCrateManifestWs, "crates/backend-comparison/Cargo.toml",
   some sampleWorkspaceManifest, some "./Cargo.toml"⟩

def c10WitnessUpdate : DependencyContentUpdate :=
  patchUpdate (Dependency.new "main") c10SampleContent none

def c10WitnessGuard : CargoDependencyGuard :=
  c10WitnessUpdate.create_guard c10SampleContent

def c10WitnessFs : FileSys :=
  c10WitnessUpdate.perform_update c10SampleContent fsWs

def sampleFeaturesManifest : List Char :=
  ( "[features]\ncuda = [\"burn/cuda\"]\nrocm = [\"burn/rocm\"]\nndarray-simd = [\"ndarray\", \"burn/simd\"]\nvulkan = [\"burn/vulkan\", \"burn/autotune\"]\nmetal = [\"burn/vulkan\", \"burn/autotune\"]\ncandle-metal = [\"burn/candle\", \"burn/candle-metal\"]\n").toList

def sampleFeaturesManifestLegacy : List Char :=
  ( "[features]\ncuda = [\"burn/cuda-jit\"]\nrocm = [\"burn/hip-jit\"]\nndarray-simd = [\"ndarray\"]\nvulkan = [\"burn/wgpu-spirv\", \"burn/autotune\"]\nmetal = [\"burn/wgpu\", \"burn/autotune\"]\ncandle-metal = [\"burn/candle\", \"burn/metal\"]\n").toList

/-! ## Rewrite-interaction conditions

Every manifest pattern of the translation table contains a closing bracket
or brace only as its final character; every replacement likewise (the
bincode insertion has its bracket mid-string with a bracket-free tail).
These shape conditions let occurrences of a pattern in `replaceAll` output
be traced back to the input. -/

def delimCharB (c : Char) : Bool := c == ']' || c == '\x7d'

def dFreeB (l : List Char) : Bool := l.all (fun c => !(delimCharB c))

def endShapedB (l : List Char) : Bool :=
  dFreeB l.dropLast &&
    (match l.getLast? with
     | some d => delimCharB d
     | none => false)

/-- Conditions under which `replaceAll p (B ++ T) s` can introduce no new
occurrence of `q`: `q` and `B` end in their only delimiter, `T` is
delimiter-free, `q` does not occur in the replacement, `B` is not a suffix
of `q`, and no non-empty suffix of `T` is a prefix of `q`. -/
def spanCondB (B T q : List Char) : Bool :=
  endShapedB q && endShapedB B && dFreeB T &&
    !(decide (q <:+: B ++ T)) && !(decide (B <:+ q)) &&
    (T.tails.all (fun a => a.isEmpty || !(decide (a <+: q))))

def depTableTail : List Char :=
  ( "\nbincode = \"=2.0.0-rc.3\"\nbincode_derive = \"=2.0.0-rc.3\"").toList

/-! ## Lemmas: `replaceAll` equations -/

theorem replaceAllFuel_congr (p r : List Char) :
    ∀ (f : Nat) (s : List Char) (g : Nat), s.length ≤ f → s.length ≤ g →
    replaceAllFuel p r f s = replaceAllFuel p r g s := by
  intro f
  induction f with
  | zero =>
    intro s g hf _
    have hs : s = [] := List.length_eq_zero.mp (Nat.le_zero.mp hf)
    subst hs
    cases g <;> rfl
  | succ f ih =>
    intro s g hf hg
    cases s with
    | nil => cases g <;> rfl
    | cons c t =>
      cases g with
      | zero => exact absurd hg (by simp)
      | succ g =>
        have hft : t.length ≤ f := by simpa using hf
        have hgt : t.length ≤ g := by simpa using hg
        have hdf : (List.drop (p.length - 1) t).length ≤ f := by
          simp only [List.length_drop]; omega
        have hdg : (List.drop (p.length - 1) t).length ≤ g := by
          simp only [List.length_drop]; omega
        by_cases hp : p <+: (c :: t)
        · rw [replaceAllFuel, replaceAllFuel, if_pos hp, if_pos hp]
          exact congrArg (r ++ ·) (ih _ g hdf hdg)
        · rw [replaceAllFuel, replaceAllFuel, if_neg hp, if_neg hp]
          exact congrArg (c :: ·) (ih t g hft hgt)

theorem replaceAll_nil (p r : List Char) : replaceAll p r [] = [] := rfl

theorem replaceAll_cons_pos {p : List Char} (r : List Char) {c : Char} {t : List Char}
    (h : p <+: (c :: t)) :
    replaceAll p r (c :: t) = r ++ replaceAll p r (List.drop (p.length - 1) t) := by
  show replaceAllFuel p r (c :: t).length (c :: t) = _
  rw [List.length_cons, replaceAllFuel, if_pos h]
  exact congrArg (r ++ ·)
    (replaceAllFuel_congr p r t.length _ _ (by simp only [List.length_drop]; omega) le_rfl)

theorem replaceAll_cons_neg {p : List Char} (r : List Char) {c : Char} {t : List Char}
    (h : ¬ p <+: (c :: t)) :
    replaceAll p r (c :: t) = c :: replaceAll p r t := by
  show replaceAllFuel p r (c :: t).length (c :: t) = _
  rw [List.length_cons, replaceAllFuel, if_neg h]
  exact congrArg (c :: ·) (replaceAllFuel_congr p r t.length t t.length le_rfl le_rfl)

/-! ## Lemmas: decomposing occurrences across an append -/

theorem prefix_append_cases {v l1 l2 : List Char} (h : v <+: l1 ++ l2) :
    v <+: l1 ∨ ∃ w, v = l1 ++ w ∧ w <+: l2 := by
  rcases le_or_lt v.length l1.length with hle | hlt
  · exact Or.inl ((List.isPrefix_append_of_length hle).mp h)
  · right
    have hl1 : l1 <+: v :=
      List.prefix_of_prefix_length_le (List.prefix_append l1 l2) h (Nat.le_of_lt hlt)
    obtain ⟨w, rfl⟩ := hl1
    refine ⟨w, rfl, ?_⟩
    obtain ⟨tail, htail⟩ := h
    rw [List.append_assoc] at htail
    exact ⟨tail, List.append_cancel_left htail⟩

theorem suffix_append_cases {a l1 l2 : List Char} (h : a <:+ l1 ++ l2) :
    a <:+ l2 ∨ ∃ a0, a = a0 ++ l2 ∧ a0 <:+ l1 := by
  rcases le_or_lt a.length l2.length with hle | hlt
  · exact Or.inl (List.suffix_of_suffix_length_le h (List.suffix_append l1 l2) hle)
  · right
    have hl2 : l2 <:+ a :=
      List.suffix_of_suffix_length_le (List.suffix_append l1 l2) h (Nat.le_of_lt hlt)
    obtain ⟨a0, rfl⟩ := hl2
    refine ⟨a0, rfl, ?_⟩
    obtain ⟨u, hu⟩ := h
    rw [← List.append_assoc] at hu
    exact ⟨u, (List.append_inj' hu rfl).1⟩

theorem infix_append_cases {q l1 l2 : List Char} (h : q <:+: l1 ++ l2) :
    q <:+: l1 ∨ q <:+: l2 ∨
      ∃ a b, q = a ++ b ∧ a ≠ [] ∧ b ≠ [] ∧ a <:+ l1 ∧ b <+: l2 := by
  induction l1 generalizing q with
  | nil => rw [List.nil_append] at h; exact Or.inr (Or.inl h)
  | cons c t ih =>
    rw [List.cons_append, List.infix_cons_iff] at h
    rcases h with hpre | hinf
    · rcases q with _ | ⟨qc, q'⟩
      · exact Or.inl List.nil_infix
      · rw [List.cons_prefix_cons] at hpre
        obtain ⟨rfl, hq'⟩ := hpre
        rcases prefix_append_cases hq' with h1 | ⟨w, hw, hwp⟩
        · exact Or.inl (List.cons_prefix_cons.mpr ⟨rfl, h1⟩).isInfix
        · rcases w with _ | ⟨wc, wt⟩
          · rw [List.append_nil] at hw
            subst hw
            exact Or.inl (List.infix_refl _)
          · refine Or.inr (Or.inr ⟨qc :: t, wc :: wt, ?_, by simp, by simp,
              List.suffix_refl _, hwp⟩)
            rw [hw]; rfl
    · rcases ih hinf with h1 | h2 | ⟨a, b, hab, ha, hb, hsuf, hpre2⟩
      · exact Or.inl (List.infix_cons h1)
      · exact Or.inr (Or.inl h2)
      · exact Or.inr (Or.inr ⟨a, b, hab, ha, hb, hsuf.trans (List.suffix_cons c t), hpre2⟩)

/-! ## Lemmas: delimiter-shape facts -/

theorem delim_not_mem_of_dFree {l : List Char} (h : dFreeB l = true) {c : Char}
    (hc : c ∈ l) : delimCharB c = false := by
  have := List.all_eq_true.mp h c hc
  simpa using this

theorem endShaped_decomp {l : List Char} (h : endShapedB l = true) :
    ∃ l0 d, l = l0 ++ [d] ∧ dFreeB l0 = true ∧ delimCharB d = true := by
  unfold endShapedB at h
  cases hl : l.getLast? with
  | none => rw [hl] at h; simp at h
  | some d =>
    rw [hl] at h
    simp only [Bool.and_eq_true] at h
    have hne : l ≠ [] := by
      intro he; subst he; simp at hl
    have hd : l.getLast hne = d := by
      have := List.getLast?_eq_getLast l hne
      rw [this] at hl
      exact Option.some.inj hl
    exact ⟨l.dropLast, d, by rw [← hd]; exact (List.dropLast_append_getLast hne).symm,
      h.1, h.2⟩

theorem no_delim_interior {q q0 : List Char} {e : Char}
    (hq : q = q0 ++ [e]) (hq0 : dFreeB q0 = true)
    {u a w : List Char} {d : Char} (hsplit : q = u ++ (a ++ [d]) ++ w)
    (hd : delimCharB d = true) (hw : w ≠ []) : False := by
  rcases w.eq_nil_or_concat with rfl | ⟨w0, lw, rfl⟩
  · exact hw rfl
  · rw [hq] at hsplit
    have heq : q0 ++ [e] = (u ++ (a ++ [d]) ++ w0) ++ [lw] := by
      rw [hsplit]; simp [List.append_assoc]
    have h2 := (List.append_inj' heq rfl).1
    have hdmem : d ∈ q0 := by rw [h2]; simp
    have hf := delim_not_mem_of_dFree hq0 hdmem
    rw [hd] at hf
    simp at hf

theorem suffix_ends_delim {B0 : List Char} {d : Char} {a : List Char}
    (ha : a <:+ B0 ++ [d]) (hane : a ≠ []) : ∃ a0, a = a0 ++ [d] := by
  rcases suffix_append_cases ha with h1 | ⟨a0, rfl, _⟩
  · obtain ⟨u, hu⟩ := h1
    have hlen := congrArg List.length hu
    simp only [List.length_append, List.length_cons, List.length_nil] at hlen
    have hu0 : u = [] := by
      rcases a with _ | ⟨c, a'⟩
      · exact absurd rfl hane
      · simp only [List.length_cons] at hlen
        exact List.length_eq_zero.mp (by omega)
    subst hu0
    rw [List.nil_append] at hu
    exact ⟨[], by simp [hu]⟩
  · exact ⟨a0, rfl⟩

theorem last_eq_of_concat_eq {x y : List Char} {a b : Char}
    (h : x ++ [a] = y ++ [b]) : a = b := by
  simpa using (List.append_inj' h rfl).2

/-- Tracking prefixes through `replaceAll`: a proper non-empty suffix `v`
of an end-delimited pattern `q` that is a prefix of the rewriting of `s`
is already a prefix of `s`, provided the replacement `r = B ++ T` has its
delimiters only at the end of `B`, `T` is delimiter-free and `B` is not a
suffix of `q`. -/
theorem prefix_track
    {p r B T q q0 B0 : List Char} {e d : Char}
    (hq : q = q0 ++ [e]) (hq0 : dFreeB q0 = true) (he : delimCharB e = true)
    (hr : r = B ++ T) (hB : B = B0 ++ [d]) (hB0 : dFreeB B0 = true)
    (hd : delimCharB d = true)
    (hT : dFreeB T = true) (hBq : ¬ B <:+ q) :
    ∀ (s v : List Char), v ≠ [] → v.length < q.length → v <:+ q →
      v <+: replaceAll p r s → v <+: s := by
  intro s
  induction s with
  | nil =>
    intro v hv _ _ hpre
    rw [replaceAll_nil] at hpre
    exact absurd (List.prefix_nil.mp hpre) hv
  | cons c t ih =>
    intro v hv hlen hsuf hpre
    by_cases hp : p <+: (c :: t)
    · rw [replaceAll_cons_pos r hp] at hpre
      exfalso
      obtain ⟨v0, hveq⟩ := suffix_ends_delim (hq ▸ hsuf) hv
      rcases prefix_append_cases hpre with h1 | ⟨w, hw, hwp⟩
      · rw [hr] at h1
        rcases prefix_append_cases h1 with h2 | ⟨w2, hw2, hw2p⟩
        · rw [hB] at h2
          rcases prefix_append_cases h2 with h3 | ⟨w3, hw3, hw3p⟩
          · have hmem : e ∈ B0 := h3.sublist.mem (by rw [hveq]; simp)
            have hfe := delim_not_mem_of_dFree hB0 hmem
            rw [he] at hfe; simp at hfe
          · rcases w3 with _ | ⟨w3c, w3t⟩
            · rw [List.append_nil] at hw3
              have hmem : e ∈ B0 := by
                have : v0 ++ [e] ∈ [B0] := by simp [← hveq, hw3]
                simp at this
                rw [← this]; simp
              have hfe := delim_not_mem_of_dFree hB0 hmem
              rw [he] at hfe; simp at hfe
            · rw [List.cons_prefix_cons] at hw3p
              obtain ⟨rfl, hw3t⟩ := hw3p
              have hw3t0 : w3t = [] := List.prefix_nil.mp hw3t
              subst hw3t0
              rw [← hB] at hw3
              exact hBq (hw3 ▸ hsuf)
        · rcases w2 with _ | ⟨w2c, w2t⟩
          · rw [List.append_nil] at hw2
            exact hBq (hw2 ▸ hsuf)
          · rcases (w2c :: w2t : List Char).eq_nil_or_concat with habs | ⟨w20, lw, hw20⟩
            · simp at habs
            · have hveq2 : v0 ++ [e] = (B ++ w20) ++ [lw] := by
                rw [← hveq, hw2, hw20]; simp [List.append_assoc]
              have hel : e = lw := last_eq_of_concat_eq hveq2
              have hmem : e ∈ T := by
                apply hw2p.sublist.mem
                rw [hw20, hel]; simp
              have hfe := delim_not_mem_of_dFree hT hmem
              rw [he] at hfe; simp at hfe
      · rcases w with _ | ⟨wc, wt⟩
        · rw [List.append_nil] at hw
          rcases T.eq_nil_or_concat with rfl | ⟨T0, lT, hTeq⟩
          · rw [List.append_nil] at hr
            exact hBq ((hw.trans hr) ▸ hsuf)
          · have hveq2 : v0 ++ [e] = (B ++ T0) ++ [lT] := by
              rw [← hveq, hw, hr, hTeq]; simp [List.append_assoc]
            have hel : e = lT := last_eq_of_concat_eq hveq2
            have hmem : e ∈ T := by rw [hTeq, hel]; simp
            have hfe := delim_not_mem_of_dFree hT hmem
            rw [he] at hfe; simp at hfe
        · obtain ⟨uu, huu⟩ := hsuf
          refine no_delim_interior hq hq0
            (u := uu) (a := B0) (d := d) (w := T ++ (wc :: wt)) ?_ hd (by simp)
          rw [← huu, hw, hr, hB]
          simp [List.append_assoc]
    · rw [replaceAll_cons_neg r hp] at hpre
      rcases v with _ | ⟨vc, v'⟩
      · exact absurd rfl hv
      · rw [List.cons_prefix_cons] at hpre
        obtain ⟨rfl, hv'⟩ := hpre
        rcases v' with _ | ⟨v'c, v't⟩
        · exact List.cons_prefix_cons.mpr ⟨rfl, List.nil_prefix⟩
        · have hsuf' : (v'c :: v't : List Char) <:+ q :=
            (List.suffix_cons vc _).trans hsuf
          have hlen' : (v'c :: v't : List Char).length < q.length :=
            Nat.lt_trans (by simp) hlen
          have hres := ih (v'c :: v't) (by simp) hlen' hsuf' hv'
          exact List.cons_prefix_cons.mpr ⟨rfl, hres⟩

/-- Occurrence tracking for `replaceAll`: under the shape conditions, an
occurrence of `q` in `replaceAll p r s` forces an occurrence of `q` in `s`
— and when `q` is the replaced pattern itself there is no occurrence at
all in the output. -/
theorem track_replaceAll
    {p r B T q q0 B0 : List Char} {e d : Char}
    (hq : q = q0 ++ [e]) (hq0 : dFreeB q0 = true) (he : delimCharB e = true)
    (hr : r = B ++ T) (hB : B = B0 ++ [d]) (hB0 : dFreeB B0 = true)
    (hd : delimCharB d = true)
    (hT : dFreeB T = true) (hBq : ¬ B <:+ q)
    (hqr : ¬ q <:+: r)
    (hTq : ∀ a, a <:+ T → a ≠ [] → ¬ a <+: q) :
    ∀ (s : List Char), (¬ q <:+: s ∨ q = p) → ¬ q <:+: replaceAll p r s
  | [], _ => by
    rw [replaceAll_nil]
    intro hcon
    have hqnil := List.eq_nil_of_infix_nil hcon
    rw [hqnil] at hq
    exact absurd hq.symm (by simp)
  | c :: t, hmode => by
    by_cases hp : p <+: (c :: t)
    · rw [replaceAll_cons_pos r hp]
      intro hcon
      rcases infix_append_cases hcon with h1 | h2 | ⟨a, b, habq, hane, hbne, hasuf, hbpre⟩
      · exact hqr h1
      · have hmode' : ¬ q <:+: List.drop (p.length - 1) t ∨ q = p := by
          rcases hmode with hs | hqp
          · exact Or.inl (fun hcon2 =>
              hs (List.infix_cons (hcon2.trans (List.drop_suffix _ t).isInfix)))
          · exact Or.inr hqp
        exact track_replaceAll hq hq0 he hr hB hB0 hd hT hBq hqr hTq _ hmode' h2
      · rw [hr] at hasuf
        rcases suffix_append_cases hasuf with haT | ⟨a0, ha0eq, ha0B⟩
        · exact hTq a haT hane ⟨b, habq.symm⟩
        · rcases a0.eq_nil_or_concat with rfl | ⟨a00, la, ha00⟩
          · rw [List.nil_append] at ha0eq
            exact hTq a (by rw [ha0eq]) hane ⟨b, habq.symm⟩
          · obtain ⟨a0', ha0'⟩ := suffix_ends_delim (hB ▸ ha0B) (by rw [ha00]; simp)
            exact no_delim_interior hq hq0 (u := []) (a := a0') (d := d)
              (w := T ++ b)
              (by rw [habq, ha0eq, ha0']; simp [List.append_assoc])
              hd (fun hctr => hbne (List.append_eq_nil.mp hctr).2)
    · rw [replaceAll_cons_neg r hp]
      intro hcon
      rcases List.infix_cons_iff.mp hcon with hpre | hinf
      · rcases hqq : q with _ | ⟨qc, q'⟩
        · rw [hqq] at hq; exact absurd hq.symm (by simp)
        · rw [hqq] at hpre
          rw [List.cons_prefix_cons] at hpre
          obtain ⟨rfl, hq'pre⟩ := hpre
          rcases q' with _ | ⟨q'c, q't⟩
          · have hqpre : q <+: qc :: t := by
              rw [hqq]
              exact List.cons_prefix_cons.mpr ⟨rfl, List.nil_prefix⟩
            rcases hmode with hs | hqp
            · exact hs hqpre.isInfix
            · exact hp (by rw [← hqp]; exact hqpre)
          · have hsufq : (q'c :: q't : List Char) <:+ q := by
              rw [hqq]; exact List.suffix_cons qc _
            have hlt : (q'c :: q't : List Char).length < q.length := by
              rw [hqq]; simp
            have hresult := prefix_track hq hq0 he hr hB hB0 hd hT hBq t (q'c :: q't)
              (by simp) hlt hsufq hq'pre
            have hqpre : q <+: qc :: t := by
              rw [hqq]
              exact List.cons_prefix_cons.mpr ⟨rfl, hresult⟩
            rcases hmode with hs | hqp
            · exact hs hqpre.isInfix
            · exact hp (by rw [← hqp]; exact hqpre)
      · have hmode' : ¬ q <:+: t ∨ q = p := by
          rcases hmode with hs | hqp
          · exact Or.inl (fun hcon2 => hs (List.infix_cons hcon2))
          · exact Or.inr hqp
        exact track_replaceAll hq hq0 he hr hB hB0 hd hT hBq hqr hTq t hmode' hinf
  termination_by s => s.length
  decreasing_by
    · simp only [List.length_drop, List.length_cons]; omega
    · simp only [List.length_cons]; omega

theorem track_of_condB {p B T q : List Char} (hc : spanCondB B T q = true)
    (s : List Char) (hmode : ¬ q <:+: s ∨ q = p) :
    ¬ q <:+: replaceAll p (B ++ T) s := by
  unfold spanCondB at hc
  rw [Bool.and_eq_true, Bool.and_eq_true, Bool.and_eq_true, Bool.and_eq_true,
    Bool.and_eq_true] at hc
  obtain ⟨⟨⟨⟨⟨hq, hB⟩, hT⟩, hqr'⟩, hBq'⟩, hTtails'⟩ := hc
  have hqr : ¬ q <:+: B ++ T := by simpa using hqr'
  have hBq : ¬ B <:+ q := by simpa using hBq'
  have hTtails := List.all_eq_true.mp hTtails'
  obtain ⟨q0, e, hqe, hq0, he⟩ := endShaped_decomp hq
  obtain ⟨B0, d, hBd, hB0, hd⟩ := endShaped_decomp hB
  have hTq : ∀ a, a <:+ T → a ≠ [] → ¬ a <+: q := by
    intro a hsuf hane hpre
    have h2 := hTtails a ((List.mem_tails a T).mpr hsuf)
    rw [Bool.or_eq_true] at h2
    rcases h2 with h | h
    · exact hane (by simpa using h)
    · rw [Bool.not_eq_true', decide_eq_false_iff_not] at h
      exact h hpre
  exact track_replaceAll hqe hq0 he rfl hBd hB0 hd hT hBq hqr hTq s hmode

theorem track_of_condB' {p r q : List Char} (hc : spanCondB r [] q = true)
    (s : List Char) (hmode : ¬ q <:+: s ∨ q = p) :
    ¬ q <:+: replaceAll p r s := by
  have h := track_of_condB (p := p) hc s hmode
  rwa [List.append_nil] at h

theorem replaceAll_id {p r s : List Char} (hs : ¬ p <:+: s) :
    replaceAll p r s = s := by
  induction s with
  | nil => exact replaceAll_nil p r
  | cons c t ih =>
    have hp : ¬ p <+: c :: t := fun h => hs h.isInfix
    rw [replaceAll_cons_neg r hp, ih (fun h => hs (List.infix_cons h))]

theorem replaceAll_present {p r s : List Char} (hp : p ≠ []) (hs : p <:+: s) :
    r <:+: replaceAll p r s := by
  induction s with
  | nil => exact absurd (List.eq_nil_of_infix_nil hs) hp
  | cons c t ih =>
    by_cases hpre : p <+: c :: t
    · rw [replaceAll_cons_pos r hpre]
      exact (List.prefix_append r _).isInfix
    · rw [replaceAll_cons_neg r hpre]
      have hpt : p <:+: t := by
        rcases List.infix_cons_iff.mp hs with h | h
        · exact absurd h hpre
        · exact h
      exact List.infix_cons (ih hpt)

theorem chain_preserve {q : List Char} (L : List (List Char × List Char))
    (hL : ∀ pr ∈ L, spanCondB pr.2 [] q = true) (s : List Char)
    (hs : ¬ q <:+: s) :
    ¬ q <:+: L.foldl (fun c pr => replaceAll pr.1 pr.2 c) s := by
  induction L generalizing s with
  | nil => simpa using hs
  | cons pr L ih =>
    simp only [List.foldl_cons]
    exact ih (fun x hx => hL x (List.mem_cons_of_mem pr hx)) _
      (track_of_condB' (hL pr (List.mem_cons_self pr L)) s (Or.inl hs))

theorem chain_id_of_absent (L : List (List Char × List Char)) (s : List Char)
    (h : ∀ pr ∈ L, ¬ pr.1 <:+: s) :
    L.foldl (fun c pr => replaceAll pr.1 pr.2 c) s = s := by
  induction L with
  | nil => rfl
  | cons pr L ih =>
    simp only [List.foldl_cons]
    rw [replaceAll_id (h pr (List.mem_cons_self pr L))]
    exact ih (fun x hx => h x (List.mem_cons_of_mem pr hx))

theorem absent_after (L1 L2 : List (List Char × List Char))
    (pr : List Char × List Char)
    (hself : spanCondB pr.2 [] pr.1 = true)
    (hL2 : ∀ x ∈ L2, spanCondB x.2 [] pr.1 = true)
    (s : List Char) :
    ¬ pr.1 <:+: (L1 ++ pr :: L2).foldl (fun c x => replaceAll x.1 x.2 c) s := by
  rw [List.foldl_append, List.foldl_cons]
  exact chain_preserve L2 hL2 _ (track_of_condB' hself _ (Or.inr rfl))

/-! ## Absence of translation patterns after the translation -/

theorem cond9_all : ∀ pr ∈ ffSteps, spanCondB depTablePat depTableTail pr.1 = true := by
  decide

theorem depPat_tail_eq : depTablePat ++ depTableTail = depTableRep := by decide

theorem bincodePin_in_depTableRep : bincodePin <:+: depTableRep := by decide

theorem chain_absent_all (content : List Char) :
    ∀ pr ∈ ffSteps, ¬ pr.1 <:+: chainReplace content := by
  intro pr hpr
  fin_cases hpr
  · exact absent_after [] [(ffPat2, ffRep2), (ffPat3, ffRep3), (ffPat4, ffRep4),
      (ffPat5, ffRep5), (ffPat6, ffRep6), (ffPat7, ffRep7), (ffPat8, ffRep8)]
      (ffPat1, ffRep1) (by decide) (by decide) content
  · exact absent_after [(ffPat1, ffRep1)] [(ffPat3, ffRep3), (ffPat4, ffRep4),
      (ffPat5, ffRep5), (ffPat6, ffRep6), (ffPat7, ffRep7), (ffPat8, ffRep8)]
      (ffPat2, ffRep2) (by decide) (by decide) content
  · exact absent_after [(ffPat1, ffRep1), (ffPat2, ffRep2)] [(ffPat4, ffRep4),
      (ffPat5, ffRep5), (ffPat6, ffRep6), (ffPat7, ffRep7), (ffPat8, ffRep8)]
      (ffPat3, ffRep3) (by decide) (by decide) content
  · exact absent_after [(ffPat1, ffRep1), (ffPat2, ffRep2), (ffPat3, ffRep3)]
      [(ffPat5, ffRep5), (ffPat6, ffRep6), (ffPat7, ffRep7), (ffPat8, ffRep8)]
      (ffPat4, ffRep4) (by decide) (by decide) content
  · exact absent_after [(ffPat1, ffRep1), (ffPat2, ffRep2), (ffPat3, ffRep3),
      (ffPat4, ffRep4)] [(ffPat6, ffRep6), (ffPat7, ffRep7), (ffPat8, ffRep8)]
      (ffPat5, ffRep5) (by decide) (by decide) content
  · exact absent_after [(ffPat1, ffRep1), (ffPat2, ffRep2), (ffPat3, ffRep3),
      (ffPat4, ffRep4), (ffPat5, ffRep5)] [(ffPat7, ffRep7), (ffPat8, ffRep8)]
      (ffPat6, ffRep6) (by decide) (by decide) content
  · exact absent_after [(ffPat1, ffRep1), (ffPat2, ffRep2), (ffPat3, ffRep3),
      (ffPat4, ffRep4), (ffPat5, ffRep5), (ffPat6, ffRep6)] [(ffPat8, ffRep8)]
      (ffPat7, ffRep7) (by decide) (by decide) content
  · exact absent_after [(ffPat1, ffRep1), (ffPat2, ffRep2), (ffPat3, ffRep3),
      (ffPat4, ffRep4), (ffPat5, ffRep5), (ffPat6, ffRep6), (ffPat7, ffRep7)] []
      (ffPat8, ffRep8) (by decide) (by decide) content

theorem chain_id {s : List Char} (h : ∀ pr ∈ ffSteps, ¬ pr.1 <:+: s) :
    chainReplace s = s :=
  chain_id_of_absent ffSteps s h

/-- Claim C3: the feature-flag translation is idempotent — applying
`update_feature_flags` to its own output for the same version leaves the
output unchanged, for every version and every manifest content string,
including the pre-0.16.1 bincode-pinning insertion. -/
theorem update_feature_flags_idempotent (v : Version) (content : List Char) :
    Dependency.update_feature_flags v (Dependency.update_feature_flags v content) =
      Dependency.update_feature_flags v content := by
  by_cases h17 : (versionLt v (versionNew 0 17 0) : Prop)
  · have habs := chain_absent_all content
    have hD : Dependency.update_feature_flags v content =
        (if versionLt v (versionNew 0 16 1) ∧ ¬ bincodePin <:+: chainReplace content
         then replaceAll depTablePat depTableRep (chainReplace content)
         else chainReplace content) := by
      unfold Dependency.update_feature_flags
      rw [if_pos h17]
    rw [hD]
    by_cases hbin : versionLt v (versionNew 0 16 1) ∧ ¬ bincodePin <:+: chainReplace content
    · rw [if_pos hbin]
      by_cases hdep : depTablePat <:+: chainReplace content
      · have hbpin : bincodePin <:+:
            replaceAll depTablePat depTableRep (chainReplace content) :=
          List.IsInfix.trans bincodePin_in_depTableRep
            (replaceAll_present (by decide) hdep)
        have habs' : ∀ pr ∈ ffSteps,
            ¬ pr.1 <:+: replaceAll depTablePat depTableRep (chainReplace content) := by
          intro pr hpr
          have h9 := track_of_condB (p := depTablePat) (cond9_all pr hpr)
            (chainReplace content) (Or.inl (habs pr hpr))
          rwa [depPat_tail_eq] at h9
        unfold Dependency.update_feature_flags
        rw [if_pos h17]
        rw [chain_id habs']
        rw [if_neg (fun hcon => hcon.2 hbpin)]
      · have hid : replaceAll depTablePat depTableRep (chainReplace content) =
            chainReplace content := replaceAll_id hdep
        rw [hid]
        unfold Dependency.update_feature_flags
        rw [if_pos h17, chain_id habs, if_pos hbin, hid]
    · rw [if_neg hbin]
      unfold Dependency.update_feature_flags
      rw [if_pos h17, chain_id habs, if_neg hbin]
  · unfold Dependency.update_feature_flags
    rw [if_neg h17, if_neg h17]

/-! ## Classification facts (claim C2) -/

theorem parseNumericId_rest {l : List Char} {n : Nat} {rest : List Char}
    (hp : parseNumericId l = some (n, rest)) :
    rest = l.dropWhile Char.isDigit := by
  unfold parseNumericId at hp
  split at hp
  · exact absurd hp (by simp)
  · split at hp
    · exact absurd hp (by simp)
    · simp only [Option.some.injEq, Prod.mk.injEq] at hp
      exact hp.2.symm

theorem head_dropWhile_false {p : Char → Bool} {l rest : List Char} {c : Char}
    (h : l.dropWhile p = c :: rest) : p c = false := by
  have := List.head?_dropWhile_not p l
  rw [h] at this
  exact this

/-- A non-empty all-lowercase-hex string is not accepted by the semver
parser: after the leading digit run the string cannot continue with the
required dot. -/
theorem parseVersion_none_of_hex {s : String}
    (h : ∀ c ∈ s.toList, hexLowerChar c = true) :
    parseVersion s = none := by
  rcases hp : parseNumericId s.toList with _ | ⟨n, rest⟩
  · unfold parseVersion
    rw [hp]
  · have hrest := parseNumericId_rest hp
    rcases hr : rest with _ | ⟨c, cs⟩
    · unfold parseVersion
      rw [hp, hr]
    · have hcd : Char.isDigit c = false :=
        head_dropWhile_false (by rw [← hrest, hr])
      have hcmem : c ∈ s.toList := by
        have hmem : c ∈ rest := by rw [hr]; simp
        rw [hrest] at hmem
        exact (List.dropWhile_sublist _).mem hmem
      have hhex := h c hcmem
      have hcne : c ≠ '.' := by
        intro heq
        rw [heq] at hhex
        exact absurd hhex (by decide)
      unfold parseVersion
      rw [hp, hr]
      split
      · rfl
      · rename_i maj r1 heq
        rw [Option.some.injEq, Prod.mk.injEq] at heq
        rw [← heq.2]
        split
        · rename_i heq2
          rw [List.cons.injEq] at heq2
          exact absurd heq2.1 hcne
        · rfl

/-- Claim C2, counterexample: the spec's example string `v7f9a2b1` is not
a lowercase hex string (it starts with `v`), so `classify` treats it as a
branch name, not as a commit SHA as the claim asserts. -/
theorem c2_counterexample :
    Dependency.new "v7f9a2b1" = Dependency.Git ( "branch = \"v7f9a2b1\"") ∧
    Dependency.new "v7f9a2b1" ≠ Dependency.Git ( "rev = \"v7f9a2b1\"") := by
  constructor
  · decide
  · decide

/-- Claim C2 (amended): `classify` is total and follows: the exact string
`local` yields `Local`; else an exact semver parse yields `Released`
(`Crate`); else a 7-to-40-character lowercase hex string — such as
`7f9a2b1`, though not the spec's example `v7f9a2b1`, whose leading `v` is
not hex — yields a commit-SHA (`rev`) git ref; every other string yields a
branch-name git ref.  In particular `main` is a branch, `0.17.0` is a
released version and `local` is local. -/
theorem classification_rule :
    Dependency.new "local" = Dependency.Local ∧
    Dependency.new "0.17.0" = Dependency.Crate (versionNew 0 17 0) ∧
    Dependency.new "main" = Dependency.Git ( "branch = \"main\"") ∧
    (∀ s : String, 7 ≤ s.toList.length → s.toList.length ≤ 40 →
      (∀ c ∈ s.toList, hexLowerChar c = true) →
      Dependency.new s = Dependency.Git ( "rev = \"" ++ s ++ "\"")) ∧
    (∀ s : String, s ≠ "local" → parseVersion s = none → is_commit_hash s = false →
      Dependency.new s = Dependency.Git ( "branch = \"" ++ s ++ "\"")) := by
  refine ⟨by decide, by decide, by decide, ?_, ?_⟩
  · intro s h7 h40 hhex
    have hne : s ≠ "local" := by
      intro heq
      subst heq
      have hl := hhex 'l' (by decide)
      exact absurd hl (by decide)
    have hpv : parseVersion s = none := parseVersion_none_of_hex hhex
    have hich : is_commit_hash s = true := by
      unfold is_commit_hash
      rw [Bool.and_eq_true, Bool.and_eq_true]
      exact ⟨⟨decide_eq_true h7, decide_eq_true h40⟩, List.all_eq_true.mpr hhex⟩
    unfold Dependency.new
    rw [if_neg hne, hpv, hich]
    rfl
  · intro s hne hpv hic
    unfold Dependency.new
    rw [if_neg hne, hpv, hic]
    rfl

theorem classification_rule_witness :
    ((7 ≤ ( "7f9a2b1").toList.length ∧ ( "7f9a2b1").toList.length ≤ 40 ∧
       (∀ c ∈ ( "7f9a2b1").toList, hexLowerChar c = true)) ∧
      Dependency.new "7f9a2b1" = Dependency.Git ( "rev = \"7f9a2b1\"")) ∧
    (( "xyz" : String) ≠ "local" ∧ parseVersion "xyz" = none ∧
      is_commit_hash "xyz" = false) ∧
    Dependency.new "xyz" = Dependency.Git ( "branch = \"xyz\"") :=
  ⟨⟨⟨by decide, by decide, by decide⟩,
    classification_rule.2.2.2.1 "7f9a2b1" (by decide) (by decide) (by decide)⟩,
   ⟨by decide, by decide, by decide⟩,
   classification_rule.2.2.2.2 "xyz" (by decide) (by decide) (by decide)⟩

/-! ## Patch / release round trip (claims C1, C10) -/

theorem from_path_props {fs : FileSys} {base_path : String} {c : DependencyContent}
    (h : DependencyContent.from_path fs base_path = some c) :
    fs c.benches_path = some c.benches ∧
    (∀ q, c.workspace_path = some q → ∃ w, c.workspace = some w ∧ fs q = some w) := by
  simp only [DependencyContent.from_path] at h
  rcases hb : fs (joinPath base_path "Cargo.toml") with _ | benches
  · rw [hb] at h; exact absurd h (by simp)
  · rw [hb] at h
    simp only [] at h
    split at h
    · rcases hw : fs "./Cargo.toml" with _ | wcontent
      · rw [hw] at h; exact absurd h (by simp)
      · rw [hw] at h
        simp only [Option.some.injEq] at h
        subst h
        refine ⟨hb, ?_⟩
        intro q hq
        simp only [Option.some.injEq] at hq
        subst hq
        exact ⟨wcontent, rfl, hw⟩
    · simp only [Option.some.injEq] at h
      subst h
      refine ⟨hb, ?_⟩
      intro q hq
      exact absurd hq (by simp)

theorem perform_release_roundtrip (u : DependencyContentUpdate) (c : DependencyContent)
    (fs : FileSys)
    (hb : fs c.benches_path = some c.benches)
    (hwp : ∀ q, c.workspace_path = some q → ∃ w, c.workspace = some w ∧ fs q = some w) :
    ∀ p, CargoDependencyGuard.release (u.create_guard c) (u.perform_update c fs) p = fs p := by
  intro p
  rcases u with ⟨ub, uw⟩
  rcases hcw : c.workspace_path with _ | q
  · rcases ub with _ | b' <;> rcases uw with _ | w' <;>
      simp only [DependencyContentUpdate.create_guard, DependencyContentUpdate.perform_update,
        CargoDependencyGuard.release, TomlDependencyGuard.release, writeFS, hcw] <;>
      by_cases hpb : p = c.benches_path <;>
      simp [hpb, hb]
  · obtain ⟨w, hw1, hw2⟩ := hwp q hcw
    rcases ub with _ | b' <;> rcases uw with _ | w'
    · simp only [DependencyContentUpdate.create_guard, DependencyContentUpdate.perform_update,
        CargoDependencyGuard.release, hcw, hw1]
    · simp only [DependencyContentUpdate.create_guard, DependencyContentUpdate.perform_update,
        CargoDependencyGuard.release, TomlDependencyGuard.release, writeFS, hcw, hw1]
      by_cases hpq : p = q
      · simp [hpq, hw2]
      · simp [hpq]
    · simp only [DependencyContentUpdate.create_guard, DependencyContentUpdate.perform_update,
        CargoDependencyGuard.release, TomlDependencyGuard.release, writeFS, hcw, hw1]
      by_cases hpb : p = c.benches_path
      · simp [hpb, hb]
      · simp [hpb]
    · simp only [DependencyContentUpdate.create_guard, DependencyContentUpdate.perform_update,
        CargoDependencyGuard.release, TomlDependencyGuard.release, writeFS, hcw, hw1]
      by_cases hpq : p = q
      · simp [hpq, hw2]
      · by_cases hpb : p = c.benches_path
        · have hbq : ¬ c.benches_path = q := fun he => hpq (hpb.trans he)
          simp [hpb, hbq, hb]
        · simp [hpq, hpb]

theorem patch_eq {dep : Dependency} {fs : FileSys} {base_path : String}
    {env : Option String} {g : CargoDependencyGuard} {fs' : FileSys}
    (h : Dependency.patch dep fs base_path env = some (g, fs')) :
    ∃ c, DependencyContent.from_path fs base_path = some c ∧
      g = (patchUpdate dep c env).create_guard c ∧
      fs' = (patchUpdate dep c env).perform_update c fs := by
  simp only [Dependency.patch] at h
  rcases hfp : DependencyContent.from_path fs base_path with _ | c
  · rw [hfp] at h; exact absurd h (by simp)
  · rw [hfp] at h
    simp only [Option.some.injEq, Prod.mk.injEq] at h
    exact ⟨c, rfl, h.1.symm, h.2.symm⟩

/-- Claim C1: for every version string (classification is total, so every
string is accepted) and every file-system state on which `patch` succeeds,
releasing the returned guard — which truncates each guarded file to length
0 and writes the captured original text back — leaves every file's content
byte-identical to its pre-patch state. -/
theorem patch_release_roundtrip (version base_path : String)
    (burnDirEnv : Option String) (fs : FileSys) (g : CargoDependencyGuard)
    (fs' : FileSys)
    (h : Dependency.patch (Dependency.new version) fs base_path burnDirEnv
          = some (g, fs'))
    (p : String) :
    CargoDependencyGuard.release g fs' p = fs p := by
  obtain ⟨c, hfp, hg, hfs'⟩ := patch_eq h
  subst hg hfs'
  obtain ⟨hb, hw⟩ := from_path_props hfp
  exact perform_release_roundtrip _ c fs hb hw p


theorem patch_release_roundtrip_witness :
    Dependency.patch (Dependency.new "0.16.0") fsSimple "crates/backend-comparison"
        none = some (c1WitnessGuard, c1WitnessFs) ∧
    CargoDependencyGuard.release c1WitnessGuard c1WitnessFs
        "crates/backend-comparison/Cargo.toml"
      = fsSimple "crates/backend-comparison/Cargo.toml" :=
  ⟨rfl,
   patch_release_roundtrip "0.16.0" "crates/backend-comparison" none fsSimple
     c1WitnessGuard c1WitnessFs rfl "crates/backend-comparison/Cargo.toml"⟩

/-- Claim C10: when the crate manifest declares its burn dependency as
workspace-inherited, patching a `GitRef` or `Local` spec writes only the
workspace-root manifest `./Cargo.toml`; the (distinct) crate-level
manifest is unchanged after the patch, and the guard release restores
every file. -/
theorem workspace_patch_only_root (dep : Dependency) (base_path : String)
    (env : Option String) (fs : FileSys) (g : CargoDependencyGuard) (fs' : FileSys)
    (crateContent rootContent : List Char)
    (hgit : (∃ r, dep = Dependency.Git r) ∨ dep = Dependency.Local)
    (hb : fs (joinPath base_path "Cargo.toml") = some crateContent)
    (hmark : workspaceMarkerA <:+: crateContent ∨ workspaceMarkerB <:+: crateContent)
    (hroot : fs "./Cargo.toml" = some rootContent)
    (hne : joinPath base_path "Cargo.toml" ≠ "./Cargo.toml")
    (hpatch : Dependency.patch dep fs base_path env = some (g, fs')) :
    (∀ p, p ≠ "./Cargo.toml" → fs' p = fs p) ∧
    fs' (joinPath base_path "Cargo.toml") = fs (joinPath base_path "Cargo.toml") ∧
    (∀ p, CargoDependencyGuard.release g fs' p = fs p) := by
  obtain ⟨c, hfp, hg, hfs'⟩ := patch_eq hpatch
  have hceq : c = ⟨crateContent, joinPath base_path "Cargo.toml",
      some rootContent, some "./Cargo.toml"⟩ := by
    have hfp2 : DependencyContent.from_path fs base_path =
        some ⟨crateContent, joinPath base_path "Cargo.toml",
          some rootContent, some "./Cargo.toml"⟩ := by
      simp only [DependencyContent.from_path]
      rw [hb]
      simp only []
      rw [if_pos hmark, hroot]
    rw [hfp] at hfp2
    exact (Option.some.inj hfp2)
  subst hceq
  have hupd : ∃ X, patchUpdate dep
      (⟨crateContent, joinPath base_path "Cargo.toml",
        some rootContent, some "./Cargo.toml"⟩ : DependencyContent) env
      = ⟨none, some X⟩ := by
    rcases hgit with ⟨r, rfl⟩ | rfl
    · exact ⟨_, rfl⟩
    · exact ⟨_, rfl⟩
  obtain ⟨X, hX⟩ := hupd
  have hfs'' : fs' = writeFS fs "./Cargo.toml" X := by
    rw [hfs', hX]
    rfl
  obtain ⟨hbp, hwp⟩ := from_path_props hfp
  refine ⟨?_, ?_, ?_⟩
  · intro p hp
    rw [hfs'']
    simp [writeFS, hp]
  · rw [hfs'']
    simp [writeFS, hne]
  · intro p
    rw [hg, hfs']
    exact perform_release_roundtrip _ _ fs hbp hwp p

theorem workspace_patch_only_root_witness :
    ((∃ r, Dependency.new "main" = Dependency.Git r) ∨
        Dependency.new "main" = Dependency.Local) ∧
    fsWs (joinPath "crates/backend-comparison" "Cargo.toml")
        = some sampleCrateManifestWs ∧
    (workspaceMarkerA <:+: sampleCrateManifestWs ∨
      workspaceMarkerB <:+: sampleCrateManifestWs) ∧
    fsWs "./Cargo.toml" = some sampleWorkspaceManifest ∧
    joinPath "crates/backend-comparison" "Cargo.toml" ≠ "./Cargo.toml" ∧
    ((∀ p, p ≠ "./Cargo.toml" → c10WitnessFs p = fsWs p) ∧
      c10WitnessFs (joinPath "crates/backend-comparison" "Cargo.toml")
        = fsWs (joinPath "crates/backend-comparison" "Cargo.toml") ∧
      (∀ p, CargoDependencyGuard.release c10WitnessGuard c10WitnessFs p = fsWs p)) :=
  ⟨Or.inl ⟨ "branch = \"main\"", rfl⟩, rfl, Or.inr (by decide), rfl, by decide,
   workspace_patch_only_root (Dependency.new "main") "crates/backend-comparison"
     none fsWs c10WitnessGuard c10WitnessFs sampleCrateManifestWs
     sampleWorkspaceManifest (Or.inl ⟨ "branch = \"main\"", rfl⟩) rfl
     (Or.inr (by decide)) rfl (by decide) rfl⟩

/-! ## Matrix driver: closed form of the three nested loops (claim C4) -/

theorem fold_dtypes_closed (benches : List String) (E : String → String → String → Nat)
    (version backend : String) (dtypes : List String) (acc : MatrixOutcome) :
    List.foldl
      (fun acc dtype =>
        { attempts := acc.attempts ++ [(version, backend, dtype)],
          failed :=
            if E version backend dtype == 0 then acc.failed
            else acc.failed ++ [⟨String.intercalate ", " benches, backend⟩] })
      acc dtypes =
    { attempts := acc.attempts ++ dtypes.map (fun d => (version, backend, d)),
      failed := acc.failed ++ dtypes.filterMap (fun d =>
        if E version backend d == 0 then none
        else some ⟨String.intercalate ", " benches, backend⟩) } := by
  induction dtypes generalizing acc with
  | nil => simp
  | cons d ds ih =>
    rw [List.foldl_cons, ih]
    by_cases h : E version backend d == 0
    · have h' : E version backend d = 0 := by simpa using h
      simp [h', List.filterMap_cons]
    · have h' : ¬ E version backend d = 0 := by simpa using h
      simp [h', List.filterMap_cons]

theorem fold_backends_closed (benches : List String) (E : String → String → String → Nat)
    (version : String) (backends dtypes : List String) (acc : MatrixOutcome) :
    List.foldl
      (fun acc backend =>
        List.foldl
          (fun acc dtype =>
            { attempts := acc.attempts ++ [(version, backend, dtype)],
              failed :=
                if E version backend dtype == 0 then acc.failed
                else acc.failed ++ [⟨String.intercalate ", " benches, backend⟩] })
          acc dtypes)
      acc backends =
    { attempts := acc.attempts
        ++ backends.flatMap (fun b => dtypes.map (fun d => (version, b, d))),
      failed := acc.failed
        ++ backends.flatMap (fun b => dtypes.filterMap (fun d =>
             if E version b d == 0 then none
             else some ⟨String.intercalate ", " benches, b⟩)) } := by
  induction backends generalizing acc with
  | nil => simp
  | cons b bs ih =>
    rw [List.foldl_cons, fold_dtypes_closed, ih]
    simp

theorem fold_versions_closed (benches : List String) (E : String → String → String → Nat)
    (versions backends dtypes : List String) (acc : MatrixOutcome) :
    List.foldl
      (fun acc version =>
        List.foldl
          (fun acc backend =>
            List.foldl
              (fun acc dtype =>
                { attempts := acc.attempts ++ [(version, backend, dtype)],
                  failed :=
                    if E version backend dtype == 0 then acc.failed
                    else acc.failed ++ [⟨String.intercalate ", " benches, backend⟩] })
              acc dtypes)
          acc backends)
      acc versions =
    { attempts := acc.attempts ++ matrixCells versions backends dtypes,
      failed := acc.failed
        ++ versions.flatMap (fun v => backends.flatMap (fun b => dtypes.filterMap (fun d =>
             if E v b d == 0 then none
             else some ⟨String.intercalate ", " benches, b⟩))) } := by
  induction versions generalizing acc with
  | nil => simp [matrixCells]
  | cons v vs ih =>
    rw [List.foldl_cons, fold_backends_closed, ih]
    simp [matrixCells]

theorem run_matrix_closed (benches backends versions dtypes : List String)
    (E : String → String → String → Nat) :
    run_backend_comparison_benchmarks benches backends versions dtypes E =
      { attempts := matrixCells versions backends dtypes,
        failed := versions.flatMap (fun v => backends.flatMap (fun b =>
          dtypes.filterMap (fun d =>
            if E v b d == 0 then none
            else some ⟨String.intercalate ", " benches, b⟩))) } := by
  unfold run_backend_comparison_benchmarks
  rw [fold_versions_closed]
  simp

theorem filterMap_flatMap_list {α β γ : Type} (l : List α) (g : α → List β)
    (f : β → Option γ) :
    (l.flatMap g).filterMap f = l.flatMap (fun x => (g x).filterMap f) := by
  induction l with
  | nil => rfl
  | cons x xs ih =>
    simp only [List.flatMap_cons, List.filterMap_append, ih]

theorem flatMap_map_length (v : String) (backends dtypes : List String) :
    (backends.flatMap (fun b => dtypes.map (fun d => (v, b, d)))).length
      = backends.length * dtypes.length := by
  induction backends with
  | nil => simp
  | cons b bs ih =>
    simp only [List.flatMap_cons, List.length_append, List.length_map, ih,
      List.length_cons]
    ring

theorem matrixCells_length (versions backends dtypes : List String) :
    (matrixCells versions backends dtypes).length =
      versions.length * backends.length * dtypes.length := by
  unfold matrixCells
  induction versions with
  | nil => simp
  | cons v vs ih =>
    simp only [List.flatMap_cons, List.length_append, ih, flatMap_map_length,
      List.length_cons]
    ring

theorem length_filterMap_eq_countP {α β : Type} (f : α → Option β) (l : List α) :
    (l.filterMap f).length = l.countP (fun x => (f x).isSome) := by
  induction l with
  | nil => rfl
  | cons x xs ih =>
    rcases hf : f x with _ | y
    · rw [List.filterMap_cons, hf, List.countP_cons]
      simp [hf, ih]
    · rw [List.filterMap_cons, hf, List.countP_cons]
      simp [hf, ih]

/-- Claim C4: the matrix driver attempts exactly one cell per
`(version, backend, dtype)` triple — `|versions| * |backends| * |dtypes|`
cells in total, benches passed through as one joined group — regardless of
outcomes (no early abort, no retries); a failed benchmark is recorded for
exactly the cells whose child exit status is non-zero, so a single failing
cell yields exactly one `FailedBenchmark` while all other cells still run. -/
theorem matrix_driver_spec (benches backends versions dtypes : List String)
    (E : String → String → String → Nat) :
    (run_backend_comparison_benchmarks benches backends versions dtypes E).attempts
        = matrixCells versions backends dtypes ∧
    (run_backend_comparison_benchmarks benches backends versions dtypes E).attempts.length
        = versions.length * backends.length * dtypes.length ∧
    (run_backend_comparison_benchmarks benches backends versions dtypes E).failed
        = (matrixCells versions backends dtypes).filterMap (fun cell =>
            if E cell.1 cell.2.1 cell.2.2 == 0 then none
            else some ⟨String.intercalate ", " benches, cell.2.1⟩) ∧
    (run_backend_comparison_benchmarks benches backends versions dtypes E).failed.length
        = (matrixCells versions backends dtypes).countP
            (fun cell => !(E cell.1 cell.2.1 cell.2.2 == 0)) ∧
    ((matrixCells versions backends dtypes).countP
        (fun cell => !(E cell.1 cell.2.1 cell.2.2 == 0)) = 1 →
      (run_backend_comparison_benchmarks benches backends versions dtypes E).failed.length
        = 1) := by
  have hfail : (run_backend_comparison_benchmarks benches backends versions dtypes E).failed
      = (matrixCells versions backends dtypes).filterMap (fun cell =>
          if E cell.1 cell.2.1 cell.2.2 == 0 then none
          else some ⟨String.intercalate ", " benches, cell.2.1⟩) := by
    rw [run_matrix_closed]
    simp only [matrixCells, filterMap_flatMap_list, List.filterMap_map, Function.comp_def]
  have hcount : (run_backend_comparison_benchmarks benches backends versions dtypes E).failed.length
      = (matrixCells versions backends dtypes).countP
          (fun cell => !(E cell.1 cell.2.1 cell.2.2 == 0)) := by
    rw [hfail, length_filterMap_eq_countP]
    apply List.countP_congr
    intro cell _
    by_cases h : E cell.1 cell.2.1 cell.2.2 == 0
    · simp [h]
    · simp [h]
  refine ⟨?_, ?_, hfail, hcount, ?_⟩
  · rw [run_matrix_closed]
  · rw [run_matrix_closed]
    exact matrixCells_length versions backends dtypes
  · intro h1
    rw [hcount, h1]

theorem matrix_driver_spec_witness :
    ((matrixCells [ "0.16.0", "0.17.0"] [ "ndarray"] [ "f32"]).countP
        (fun cell =>
          !((if cell.1 = "0.16.0" then 7 else 0) == 0)) = 1) ∧
    (run_backend_comparison_benchmarks [ "all"] [ "ndarray"] [ "0.16.0", "0.17.0"]
        [ "f32"] (fun v _ _ => if v = "0.16.0" then 7 else 0)).failed.length = 1 :=
  ⟨by decide,
   (matrix_driver_spec [ "all"] [ "ndarray"] [ "0.16.0", "0.17.0"] [ "f32"]
      (fun v _ _ => if v = "0.16.0" then 7 else 0)).2.2.2.2 (by decide)⟩

/-- Claim C5: the scenario versions = [0.16.0, 0.17.0], backends =
[ndarray], dtypes = [f32] produces exactly the two expected cells; the
0.16.0 cell's feature string carries the `legacy-v16` marker and its
manifest translation applies the renamed GPU/SIMD feature aliases, while
for 0.17.0 the feature string carries no `legacy-v16` marker and the
translation leaves every manifest unchanged. -/
theorem scenario_two_cells :
    matrixCells [ "0.16.0", "0.17.0"] [ "ndarray"] [ "f32"]
      = [( "0.16.0", "ndarray", "f32"), ( "0.17.0", "ndarray", "f32")] ∧
    (matrixCells [ "0.16.0", "0.17.0"] [ "ndarray"] [ "f32"]).length = 2 ∧
    (( "legacy-v16").toList <:+:
      (buildFeatures "backend-comparison" [ "all"] "ndarray" "f32" "0.16.0"
        (fun _ => [])).toList) ∧
    (¬ ( "legacy-v16").toList <:+:
      (buildFeatures "backend-comparison" [ "all"] "ndarray" "f32" "0.17.0"
        (fun _ => [])).toList) ∧
    Dependency.new "0.16.0" = Dependency.Crate (versionNew 0 16 0) ∧
    versionLt (versionNew 0 16 0) (versionNew 0 17 0) = true ∧
    Dependency.update_feature_flags (versionNew 0 16 0) sampleFeaturesManifest
      = sampleFeaturesManifestLegacy ∧
    (∀ content, Dependency.update_feature_flags (versionNew 0 17 0) content = content) := by
  refine ⟨by decide, by decide, by decide, by decide, by decide, by decide, by decide, ?_⟩
  intro content
  unfold Dependency.update_feature_flags
  rw [if_neg (by decide : ¬ (versionLt (versionNew 0 17 0) (versionNew 0 17 0)) = true)]

/-! ## Timing engine (claim C6) -/

theorem run_fold_closed {δ : Type} (bm : BenchmarkModel δ) (n : Nat) :
    ∀ (evs : List BenchEvent) (idx : Nat) (ds : List δ),
    (List.range n).foldl
      (fun (acc : List BenchEvent × Nat × List δ) _ =>
        (acc.1 ++ profileEvents, acc.2.1 + 1, acc.2.2 ++ [bm.sampleDuration acc.2.1]))
      ((evs, idx, ds) : List BenchEvent × Nat × List δ)
    = (evs ++ (List.range n).flatMap (fun _ => profileEvents),
       idx + n,
       ds ++ (List.range n).map (fun k => bm.sampleDuration (idx + k))) := by
  induction n with
  | zero => intro evs idx ds; simp
  | succ m ih =>
    intro evs idx ds
    rw [List.range_succ, List.foldl_append, ih]
    simp [List.flatMap_append, List.map_append, List.append_assoc]
    omega

theorem countP_flatMap_const {α β : Type} (p : α → Bool) (es : List α) (l : List β) :
    (l.flatMap (fun _ => es)).countP p = l.length * es.countP p := by
  induction l with
  | nil => simp
  | cons x xs ih =>
    rw [List.flatMap_cons, List.countP_append, ih, List.length_cons]
    ring

/-- Claim C6: `Benchmark::run` emits exactly one `prepare`, then three
warm-up sync-execute-sync rounds whose durations are discarded, a
one-second sleep, then `num_samples()` timed rounds whose durations are
returned in order; the returned durations list has `num_samples()` entries
(10 by default, overridden by the environment variable). -/
theorem benchmark_run_spec {δ : Type} (bm : BenchmarkModel δ) (tm : TimingMethod)
    (env : Option String) :
    (Benchmark.run bm tm env).1
      = [BenchEvent.prepare]
        ++ (List.range 3).flatMap (fun _ => profileEvents)
        ++ [BenchEvent.sleepSec 1]
        ++ (List.range (num_samples env)).flatMap (fun _ => profileEvents) ∧
    (Benchmark.run bm tm env).2.durations
      = (List.range (num_samples env)).map (fun k => bm.sampleDuration (3 + k)) ∧
    (Benchmark.run bm tm env).2.durations.length = num_samples env ∧
    (Benchmark.run bm tm env).2.timing_method = tm ∧
    (Benchmark.run bm tm env).1.countP (fun e => e == BenchEvent.prepare) = 1 ∧
    (Benchmark.run bm tm env).1.countP (fun e => e == BenchEvent.execute)
      = 3 + num_samples env ∧
    num_samples none = 10 := by
  have hrun : Benchmark.run bm tm env
      = ([BenchEvent.prepare]
          ++ (List.range 3).flatMap (fun _ => profileEvents)
          ++ [BenchEvent.sleepSec 1]
          ++ (List.range (num_samples env)).flatMap (fun _ => profileEvents),
         ⟨tm, (List.range (num_samples env)).map (fun k => bm.sampleDuration (3 + k))⟩) := by
    simp only [Benchmark.run]
    rw [run_fold_closed]
    rfl
  refine ⟨by rw [hrun], by rw [hrun], ?_, by rw [hrun], ?_, ?_, rfl⟩
  · rw [hrun]
    simp
  · rw [hrun]
    simp only [List.countP_append, countP_flatMap_const, List.length_range]
    have h1 : List.countP (fun e => e == BenchEvent.prepare) [BenchEvent.prepare] = 1 := rfl
    have h2 : List.countP (fun e => e == BenchEvent.prepare) [BenchEvent.sleepSec 1] = 0 := rfl
    have h3 : List.countP (fun e => e == BenchEvent.prepare) profileEvents = 0 := rfl
    rw [h1, h2, h3]
    omega
  · rw [hrun]
    simp only [List.countP_append, countP_flatMap_const, List.length_range]
    have h1 : List.countP (fun e => e == BenchEvent.execute) [BenchEvent.prepare] = 0 := rfl
    have h2 : List.countP (fun e => e == BenchEvent.execute) [BenchEvent.sleepSec 1] = 0 := rfl
    have h3 : List.countP (fun e => e == BenchEvent.execute) profileEvents = 1 := rfl
    rw [h1, h2, h3]
    omega

/-! ## Statistics bounds (claim C7) -/

theorem foldl_min_le_init (t : List ℚ) (a : ℚ) : t.foldl min a ≤ a := by
  induction t generalizing a with
  | nil => simp
  | cons b t ih =>
    rw [List.foldl_cons]
    exact le_trans (ih (min a b)) (min_le_left a b)

theorem foldl_min_le_mem (t : List ℚ) (a x : ℚ) (hx : x ∈ t) : t.foldl min a ≤ x := by
  induction t generalizing a with
  | nil => simp at hx
  | cons b t ih =>
    rw [List.foldl_cons]
    rcases List.mem_cons.mp hx with rfl | hx'
    · exact le_trans (foldl_min_le_init t (min a x)) (min_le_right a x)
    · exact ih (min a b) hx'

theorem listMin_le {l : List ℚ} {x : ℚ} (hx : x ∈ l) : listMin l ≤ x := by
  rcases l with _ | ⟨h, t⟩
  · simp at hx
  · unfold listMin
    rcases List.mem_cons.mp hx with rfl | hx'
    · exact foldl_min_le_init t x
    · exact foldl_min_le_mem t h x hx'

theorem init_le_foldl_max (t : List ℚ) (a : ℚ) : a ≤ t.foldl max a := by
  induction t generalizing a with
  | nil => simp
  | cons b t ih =>
    rw [List.foldl_cons]
    exact le_trans (le_max_left a b) (ih (max a b))

theorem mem_le_foldl_max (t : List ℚ) (a x : ℚ) (hx : x ∈ t) : x ≤ t.foldl max a := by
  induction t generalizing a with
  | nil => simp at hx
  | cons b t ih =>
    rw [List.foldl_cons]
    rcases List.mem_cons.mp hx with rfl | hx'
    · exact le_trans (le_max_right a x) (init_le_foldl_max t (max a x))
    · exact ih (max a b) hx'

theorem le_listMax {l : List ℚ} {x : ℚ} (hx : x ∈ l) : x ≤ listMax l := by
  rcases l with _ | ⟨h, t⟩
  · simp at hx
  · unfold listMax
    rcases List.mem_cons.mp hx with rfl | hx'
    · exact init_le_foldl_max t x
    · exact mem_le_foldl_max t h x hx'

theorem medianOf_bounds {l : List ℚ} (h : l ≠ []) :
    listMin l ≤ medianOf l ∧ medianOf l ≤ listMax l := by
  have hperm := List.perm_insertionSort (fun a b => a ≤ b) l
  have hlen : (sortedSamples l).length = l.length := hperm.length_eq
  have hpos : 0 < l.length := List.length_pos.mpr h
  have hhalf : l.length / 2 < l.length := Nat.div_lt_self hpos (by norm_num)
  have hidx2 : l.length / 2 < (sortedSamples l).length := by rw [hlen]; exact hhalf
  have hmem2 : (sortedSamples l).getD (l.length / 2) 0 ∈ l := by
    rw [List.getD_eq_getElem _ _ hidx2]
    exact hperm.mem_iff.mp (List.getElem_mem hidx2)
  by_cases hodd : l.length % 2 = 1
  · simp only [medianOf]
    rw [if_pos hodd]
    exact ⟨listMin_le hmem2, le_listMax hmem2⟩
  · have hidx1 : l.length / 2 - 1 < (sortedSamples l).length := by rw [hlen]; omega
    have hmem1 : (sortedSamples l).getD (l.length / 2 - 1) 0 ∈ l := by
      rw [List.getD_eq_getElem _ _ hidx1]
      exact hperm.mem_iff.mp (List.getElem_mem hidx1)
    simp only [medianOf]
    rw [if_neg hodd]
    have ha := listMin_le hmem1
    have hb := listMin_le hmem2
    have hc := le_listMax hmem1
    have hd := le_listMax hmem2
    constructor
    · linarith
    · linarith

/-- Claim C7: for every non-empty sample list, the computed statistics
satisfy `min ≤ median ≤ max` and `min ≤ mean ≤ max`.  The statistics layer
is modelled from the spec (its source is not in the tree). -/
theorem stats_bounds (l : List ℚ) (h : l ≠ []) :
    (BenchmarkComputations.ofSamples l).min ≤ (BenchmarkComputations.ofSamples l).median ∧
    (BenchmarkComputations.ofSamples l).median ≤ (BenchmarkComputations.ofSamples l).max ∧
    (BenchmarkComputations.ofSamples l).min ≤ (BenchmarkComputations.ofSamples l).mean ∧
    (BenchmarkComputations.ofSamples l).mean ≤ (BenchmarkComputations.ofSamples l).max := by
  have hpos : 0 < l.length := List.length_pos.mpr h
  have hq : (0 : ℚ) < (l.length : ℚ) := by exact_mod_cast hpos
  have hmed := medianOf_bounds h
  have hmin_mean : listMin l ≤ l.sum / (l.length : ℚ) := by
    rw [le_div_iff₀ hq]
    have := List.card_nsmul_le_sum l (listMin l) (fun x hx => listMin_le hx)
    rw [nsmul_eq_mul] at this
    linarith
  have hmean_max : l.sum / (l.length : ℚ) ≤ listMax l := by
    rw [div_le_iff₀ hq]
    have := List.sum_le_card_nsmul l (listMax l) (fun x hx => le_listMax hx)
    rw [nsmul_eq_mul] at this
    linarith
  refine ⟨?_, ?_, ?_, ?_⟩ <;> simp only [BenchmarkComputations.ofSamples]
  · exact hmed.1
  · exact hmed.2
  · exact hmin_mean
  · exact hmean_max

/-- Witness for C7 at the concrete sample list `[3, 1, 2]`. -/
theorem stats_bounds_witness :
    ([3, 1, 2] : List ℚ) ≠ [] ∧
    ((BenchmarkComputations.ofSamples [3, 1, 2]).min
        ≤ (BenchmarkComputations.ofSamples [3, 1, 2]).median ∧
      (BenchmarkComputations.ofSamples [3, 1, 2]).median
        ≤ (BenchmarkComputations.ofSamples [3, 1, 2]).max ∧
      (BenchmarkComputations.ofSamples [3, 1, 2]).min
        ≤ (BenchmarkComputations.ofSamples [3, 1, 2]).mean ∧
      (BenchmarkComputations.ofSamples [3, 1, 2]).mean
        ≤ (BenchmarkComputations.ofSamples [3, 1, 2]).max) :=
  ⟨by decide, stats_bounds [3, 1, 2] (by decide)⟩

/-- Claim C8: a non-zero child exit status is not an error for the process
supervisor: `run_command` drains both output streams, calls finish and
wait, and returns `Ok` with the child's exit status whatever its value;
only the matrix driver interprets that status, recording a failed cell
exactly when the returned status is non-zero. -/
theorem supervisor_status_spec :
    (∀ child : ChildProcess,
      (CargoRunner.run_command child).2 = Except.ok child.exit_code ∧
      (CargoRunner.run_command child).1
        = (child.stdout_lines.map SupEvent.outLine)
          ++ (child.stderr_lines.map SupEvent.errLine)
          ++ [SupEvent.finishCall, SupEvent.waitCall]) ∧
    (∀ (benches backends versions dtypes : List String)
        (childOf : String → String → String → ChildProcess),
      (run_backend_comparison_benchmarks benches backends versions dtypes
        (fun v b d =>
          match (CargoRunner.run_command (childOf v b d)).2 with
          | Except.ok code => code
          | Except.error _ => 1)).failed
      = (matrixCells versions backends dtypes).filterMap (fun cell =>
          if (childOf cell.1 cell.2.1 cell.2.2).exit_code == 0 then none
          else some ⟨String.intercalate ", " benches, cell.2.1⟩)) := by
  refine ⟨fun child => ⟨rfl, rfl⟩, ?_⟩
  intro benches backends versions dtypes childOf
  rw [run_matrix_closed]
  simp only [matrixCells, filterMap_flatMap_list, List.filterMap_map, Function.comp_def]
  rfl

/-! ## Report rendering (claim C9) -/

theorem specRowsAux_congr {p q : ReportRecord} (h1 : p.name = q.name)
    (h2 : p.shapes = q.shapes) (l : List ReportRecord) :
    specRowsAux p l = specRowsAux q l := by
  cases l with
  | nil => rfl
  | cons r rest => simp only [specRowsAux, h1, h2]

theorem successRowsLoop_eq_specAux (l : List ReportRecord) :
    ∀ (pn : String) (ps : List (List Nat)),
    successRowsLoop l pn ps = specRowsAux ⟨pn, ps, 0⟩ l := by
  induction l with
  | nil => intro pn ps; rfl
  | cons r rest ih =>
    intro pn ps
    simp only [successRowsLoop, specRowsAux]
    have hcongr := @specRowsAux_congr ⟨r.name, r.shapes, 0⟩ r rfl rfl rest
    by_cases hc : pn ≠ r.name ∨ ps ≠ r.shapes
    · rw [if_pos hc]
      by_cases hn : pn ≠ ""
      · rw [if_pos hn, if_pos ⟨hc, hn⟩, ih, hcongr]
      · rw [if_neg hn, if_neg (fun hz => hn hz.2), ih, hcongr]
    · rw [if_neg hc]
      push_neg at hc
      rw [if_neg (fun hz => (not_or.mpr ⟨fun hne => hne hc.1, fun hne => hne hc.2⟩) hz.1)]
      rw [ih, @specRowsAux_congr ⟨pn, ps, 0⟩ r hc.1 hc.2 rest]
      rfl

theorem successRowsLoop_eq_specRows (l : List ReportRecord) :
    successRowsLoop l "" [] = specRows l := by
  cases l with
  | nil => rfl
  | cons r rest =>
    simp only [successRowsLoop, specRows]
    by_cases hc : ( "") ≠ r.name ∨ ([] : List (List Nat)) ≠ r.shapes
    · rw [if_pos hc, if_neg (fun h => h rfl)]
      rw [successRowsLoop_eq_specAux, @specRowsAux_congr ⟨r.name, r.shapes, 0⟩ r rfl rfl rest]
      rfl
    · rw [if_neg hc]
      push_neg at hc
      rw [successRowsLoop_eq_specAux, @specRowsAux_congr ⟨ "", [], 0⟩ r hc.1 hc.2 rest]

/-- Claim C9 counterexample: two successful records whose benchmark name is
the empty string but whose shapes differ render as consecutive success rows
with no separator between them, although the (name, shapes) group changes:
the loop's `prev_benchmark` empty-string sentinel suppresses the separator. -/
theorem c9_counterexample :
    renderRows [⟨ "", [[1]], 0⟩, ⟨ "", [[2]], 0⟩] []
      = [ReportRow.success ⟨ "", [[1]], 0⟩, ReportRow.success ⟨ "", [[2]], 0⟩] ∧
    (⟨ "", [[1]], 0⟩ : ReportRecord).shapes ≠ (⟨ "", [[2]], 0⟩ : ReportRecord).shapes ∧
    ReportRow.separator ∉ renderRows [⟨ "", [[1]], 0⟩, ⟨ "", [[2]], 0⟩] [] := by
  refine ⟨?_, by decide, ?_⟩ <;> decide

/-- Claim C9 (amended): the rendered report lists the successful records
sorted by (name, shapes, median ascending) — the emitted success rows are
the stably sorted records, a permutation of the input — with a separator
row between consecutive success rows exactly when the (name, shapes) group
changes and the earlier row's name is non-empty, and all failed-benchmark
rows, visually distinguished, appear after every success row. -/
theorem report_rendering_spec (records : List ReportRecord)
    (failed : List FailedBenchmark) :
    renderRows records failed
      = specRows (sortRecords records) ++ failed.map ReportRow.failedRow ∧
    List.Sorted recordLe (sortRecords records) ∧
    (sortRecords records).Perm records := by
  refine ⟨?_, ?_, ?_⟩
  · unfold renderRows
    rw [successRowsLoop_eq_specRows]
  · exact List.sorted_insertionSort (fun a b => recordLe a b) records
  · exact List.perm_insertionSort (fun a b => recordLe a b) records
